import Mathlib

/-!
Verification of the single-day time-block scheduler from
`src/experiments/streamlit_mvp/app_streamlit.py`.

Shallow embedding conventions:
* Times of day and datetimes are integers counting whole minutes; every time
  value the program manipulates is minute-granular (UI time inputs, integer
  block/break lengths), so this is exact.
* Dates (for deadlines and "today") are integers counting days, so that
  `(task.deadline.date() - datetime.now().date()).days` becomes a subtraction.
* Python floats in the scoring function are modelled as rationals; all the
  constants involved (1.6, 1.1, 0.5, 0.4, 1.2, 0.6, 1.15, 0.8 and halves of
  integers) are exactly representable, and no rounding-sensitive arithmetic
  occurs.
* The fallible dictionary lookup `{1: 3.0, 2: 2.0, 3: 1.0}[task.priority]`
  (a KeyError for priorities outside 1..3) is modelled with `Option`; the
  failure propagates through `score`, the `max(...)` call and the whole
  planning run, which is therefore `Option`-valued.
* Python object identity: `remaining = tasks.copy()` copies only the list,
  so the `Task` objects stay shared with the caller.  We model the caller's
  task objects as a list `store : List Task` indexed by position (object
  identity = index), the copied list as `List ℕ` of indices, and mutation of
  `best.minutes` as an update of `store`.  The store returned by a run is
  exactly what the caller's records look like afterwards.
* `remaining.remove(best)` removes the first element structurally equal
  (`==` on dataclasses) to `best`; it is modelled by `removeFirstEq`, which
  compares the records stored at the indices.
-/

namespace Planner

/-- Mirrors the `Subtask` dataclass. -/
structure Subtask where
  title : String
  done : Bool
deriving DecidableEq, Repr

/-- Mirrors the `Task` dataclass.  `deadline` stores the deadline's date as a
day count (the code only ever uses `task.deadline.date()`). -/
structure Task where
  title : String
  minutes : ℤ
  priority : ℤ
  energy : String
  deadline : Option ℤ
  tags : List String
  project : Option String
  depends_on : List String
  subtasks : List Subtask
  url : Option String
deriving DecidableEq, Repr

/-- Mirrors the `Block` dataclass; `endTime` stands for the Python field
`end` (a reserved word in Lean). -/
structure Block where
  start : ℤ
  endTime : ℤ
  kind : String
  task_title : Option String
deriving DecidableEq, Repr

/-- Mirrors the `FixedBlock` dataclass (`endTime` = Python `end`). -/
structure FixedBlock where
  start : ℤ
  endTime : ℤ
  title : String
deriving DecidableEq, Repr

/-- Mirrors the `Habit` dataclass. -/
structure Habit where
  name : String
  with_time_block : Bool
  minutes : ℤ
  goal_is_binary : Bool
deriving DecidableEq, Repr

/-- Default-constructed task (the dataclass field defaults); used only as the
out-of-range default of `getT`, which is never reached in the program's runs. -/
def defaultTask : Task :=
  ⟨"", 0, 2, "medium", none, [], none, [], [], none⟩

instance : Inhabited Task := ⟨defaultTask⟩

/-- Dereference a task object by its identity (list position). -/
def getT (store : List Task) (i : ℕ) : Task :=
  store.getD i defaultTask

/-- Models `ENERGY_ORDER.get(e, 1)` for the dict
`{"low": 0, "medium": 1, "high": 2}` (default value 1). -/
def ENERGY_ORDER (e : String) : ℤ :=
  if e = "low" then 0 else if e = "medium" then 1 else if e = "high" then 2 else 1

/-- Models the dict lookup `{1: 3.0, 2: 2.0, 3: 1.0}[p]`; `none` is the
KeyError raised for a priority outside 1..3. -/
def prioTable (p : ℤ) : Option ℚ :=
  if p = 1 then some 3 else if p = 2 then some 2 else if p = 3 then some 1 else none

/-- Source line 88: `1.15 if (slot_index <= 2 and task.priority == 1) else 1.0`. -/
def morning_boost (slot_index : ℕ) (priority : ℤ) : ℚ :=
  if slot_index ≤ 2 ∧ priority = 1 then 1.15 else 1.0

/-- The scoring function `score(task, slot_index, slot_energy)`.  `today` is
the date `datetime.now().date()` observed during the run. -/
def score (today : ℤ) (t : Task) (slot_index : ℕ) (slot_energy : String) : Option ℚ :=
  match prioTable t.priority with
  | none => none
  | some prio =>
    let urg : ℚ :=
      match t.deadline with
      | some d => max 0 (4 - ((d - today : ℤ) : ℚ) / 2)
      | none => 0.8
    let fit : ℚ := if ENERGY_ORDER t.energy ≤ ENERGY_ORDER slot_energy then 1.2 else 0.6
    let short_bonus : ℚ := if t.minutes ≤ 60 then 1.2 else 1.0
    some (prio * 1.6 + urg * 1.1 + fit * 1.0 + short_bonus * 0.5 +
      morning_boost slot_index t.priority * 0.4)

/-- The interval overlap test `not (a_end <= b_start or a_start >= b_end)`. -/
def collides (a_start a_end b_start b_end : ℤ) : Bool :=
  !(a_end ≤ b_start || a_start ≥ b_end)

/-- First fixed block in list order that collides with the tentative
interval — the `for fb in fixed_sorted: if collides(...): collided = fb; break`
scan. -/
def findCollided (cur next_end : ℤ) : List FixedBlock → Option FixedBlock
  | [] => none
  | fb :: fbs =>
    if collides cur next_end fb.start fb.endTime then some fb
    else findCollided cur next_end fbs

/-- Insertion step of the stable sort `sorted(fixed_blocks, key=lambda b: b.start)`. -/
def insertByStart (fb : FixedBlock) : List FixedBlock → List FixedBlock
  | [] => [fb]
  | b :: bs => if fb.start ≤ b.start then fb :: b :: bs else b :: insertByStart fb bs

/-- Models `sorted(fixed_blocks, key=lambda b: b.start)` (stable, ascending). -/
def sortFixed : List FixedBlock → List FixedBlock
  | [] => []
  | fb :: fbs => insertByStart fb (sortFixed fbs)

/-- One-day slot-building loop (source lines 117-140), with explicit fuel for
the `while cur < end_dt` loop.  Returns `none` when the fuel is exhausted
before the loop finishes. -/
def buildSlotsGo (block_minutes break_minutes end_dt : ℤ) (fixed_sorted : List FixedBlock) :
    ℕ → ℤ → Option (List Block)
  | 0, cur => if cur < end_dt then none else some []
  | fuel + 1, cur =>
    if cur < end_dt then
      let next_end := cur + block_minutes
      match findCollided cur next_end fixed_sorted with
      | some fb =>
        (buildSlotsGo block_minutes break_minutes end_dt fixed_sorted fuel fb.endTime).map
          (fun rest => ⟨fb.start, fb.endTime, "fixed", some fb.title⟩ :: rest)
      | none =>
        if break_minutes > 0 ∧ next_end < end_dt then
          (buildSlotsGo block_minutes break_minutes end_dt fixed_sorted fuel
              (next_end + break_minutes)).map
            (fun rest =>
              ⟨cur, next_end, "work", none⟩ ::
                ⟨next_end, next_end + break_minutes, "break", none⟩ :: rest)
        else
          (buildSlotsGo block_minutes break_minutes end_dt fixed_sorted fuel next_end).map
            (fun rest => ⟨cur, next_end, "work", none⟩ :: rest)
    else some []

/-- The slot-builder portion of `generate_plan`: sorts the fixed blocks and
runs the while loop.  The fuel `(day_end - day_start).toNat` bounds the
iteration count whenever each iteration advances the cursor by at least one
minute (proved below); a run that would loop forever returns `none`. -/
def build_slots (day_start day_end block_minutes break_minutes : ℤ)
    (fixed_blocks : List FixedBlock) : Option (List Block) :=
  buildSlotsGo block_minutes break_minutes day_end (sortFixed fixed_blocks)
    (day_end - day_start).toNat day_start

/-- Habit-insertion scan (source lines 144-159) for a single habit: find the
first work block long enough and unassigned, put the habit block before it and
truncate the work block's start. -/
def insertHabitGo (h : Habit) : List Block → List Block
  | [] => []
  | s :: rest =>
    if s.kind = "work" ∧ s.endTime - s.start ≥ h.minutes ∧ s.task_title = none then
      ⟨s.start, s.start + h.minutes, "habit", some h.name⟩ ::
        { s with start := s.start + h.minutes } :: rest
    else s :: insertHabitGo h rest

/-- Source line 143 and the habit loop: only habits with
`with_time_block and minutes > 0` are threaded through `insertHabitGo`. -/
def insertHabits (slots : List Block) (habits : List Habit) : List Block :=
  (habits.filter (fun h => h.with_time_block && decide (h.minutes > 0))).foldl
    (fun acc h => insertHabitGo h acc) slots

/-- Models `int((slot.end - slot.start).seconds / 60)`: a Python timedelta
normalises to days plus seconds in `[0, 86400)`, and `int` of the nonnegative
quotient is a floor division. -/
def minutesInSlot (b : Block) : ℤ :=
  (b.endTime - b.start) * 60 % 86400 / 60

/-- Effective slot energy
`energy_profile[min(idx, len(energy_profile) - 1)] if energy_profile else "medium"`. -/
def slotEnergy (profile : List String) (idx : ℕ) : String :=
  if profile = [] then "medium" else profile.getD (min idx (profile.length - 1)) "medium"

/-- Titles of currently remaining tasks, `[x.title for x in remaining]`. -/
def remainingTitles (store : List Task) (remaining : List ℕ) : List String :=
  remaining.map (fun i => (getT store i).title)

/-- The dependency test of the candidate filter (source line 173):
`all(dep not in [x.title for x in remaining] for dep in t.depends_on)`. -/
def depOK (store : List Task) (remaining : List ℕ) (i : ℕ) : Bool :=
  (getT store i).depends_on.all (fun dep => !(remainingTitles store remaining).contains dep)

/-- Candidate filter (source lines 170-174): tasks all of whose dependency
titles are absent from the remaining pool's titles. -/
def candidatesOf (store : List Task) (remaining : List ℕ) : List ℕ :=
  remaining.filter (depOK store remaining)

/-- Accumulator loop of `max(candidates, key=lambda t: score(t, idx, slot_energy))`:
CPython's max keeps the current best and replaces it only on a strictly
greater key, so the first maximal element wins. -/
def pickBestGo (today : ℤ) (store : List Task) (idx : ℕ) (e : String) :
    ℕ → ℚ → List ℕ → Option ℕ
  | b, _, [] => some b
  | b, sb, c :: cs =>
    match score today (getT store c) idx e with
    | none => none
    | some sc =>
      if sb < sc then pickBestGo today store idx e c sc cs
      else pickBestGo today store idx e b sb cs

/-- Models `max(candidates, key=...)`; `none` on an empty list (Python raises)
or when a score raises. -/
def pickBest (today : ℤ) (store : List Task) (idx : ℕ) (e : String) :
    List ℕ → Option ℕ
  | [] => none
  | c :: cs =>
    match score today (getT store c) idx e with
    | none => none
    | some sc => pickBestGo today store idx e c sc cs

/-- Models `remaining.remove(best)`: drop the first index whose stored record
is structurally equal to `rec`; `none` is the ValueError when nothing matches. -/
def removeFirstEq (store : List Task) (rec : Task) : List ℕ → Option (List ℕ)
  | [] => none
  | j :: js =>
    if getT store j = rec then some js
    else (removeFirstEq store rec js).map (fun l => j :: l)

/-- The decrement `best.minutes -= minutes_in_slot`. -/
def decMinutes (t : Task) (d : ℤ) : Task :=
  { t with minutes := t.minutes - d }

/-- One iteration of the assignment loop (source lines 163-183) at overall
slot position `idx`.  Returns the (possibly assigned) block, the identity of
the task object assigned to it (bookkeeping output: the index whose title was
written into the block), and the updated store and remaining pool. -/
def assignStep (today : ℤ) (profile : List String) (idx : ℕ) (slot : Block)
    (store : List Task) (remaining : List ℕ) :
    Option (Block × Option ℕ × List Task × List ℕ) :=
  if slot.kind ≠ "work" ∨ remaining = [] then some (slot, none, store, remaining)
  else
    let e := slotEnergy profile idx
    let cands0 := candidatesOf store remaining
    let cands := if cands0 = [] then remaining else cands0
    match pickBest today store idx e cands with
    | none => none
    | some b =>
      let slot' := { slot with task_title := some (getT store b).title }
      let d := minutesInSlot slot
      let best' := decMinutes (getT store b) d
      let store' := store.set b best'
      if best'.minutes ≤ 0 then
        match removeFirstEq store' best' remaining with
        | none => none
        | some rem' => some (slot', some b, store', rem')
      else some (slot', some b, store', remaining)

/-- The assignment pass `for idx, slot in enumerate(slots)` starting at
position `idx`. -/
def assignGo (today : ℤ) (profile : List String) :
    ℕ → List Block → List Task → List ℕ →
    Option (List (Block × Option ℕ) × List Task × List ℕ)
  | _, [], store, remaining => some ([], store, remaining)
  | idx, s :: ss, store, remaining =>
    match assignStep today profile idx s store remaining with
    | none => none
    | some (s', asg, store', rem') =>
      match assignGo today profile (idx + 1) ss store' rem' with
      | none => none
      | some (out, storeF, remF) => some ((s', asg) :: out, storeF, remF)

/-- The task-assigner portion of `generate_plan`: `remaining = tasks.copy()`
copies the list of references, i.e. all indices into the shared store, then
the loop runs over every slot. -/
def assign_tasks (today : ℤ) (slots : List Block) (store : List Task)
    (profile : List String) :
    Option (List (Block × Option ℕ) × List Task × List ℕ) :=
  assignGo today profile 0 slots store (List.range store.length)

/-- `generate_plan` (source lines 100-185): build the slots, splice in the
habit blocks, assign tasks.  The second component of the result is the list of
the caller's task records as they stand after the call (the store is shared
with the caller, see the module comment). -/
def generate_plan (today : ℤ) (tasks : List Task) (habits : List Habit)
    (day_start day_end block_minutes break_minutes : ℤ)
    (energy_profile : List String) (fixed_blocks : List FixedBlock) :
    Option (List (Block × Option ℕ) × List Task) :=
  match build_slots day_start day_end block_minutes break_minutes fixed_blocks with
  | none => none
  | some slots0 =>
    let slots := insertHabits slots0 habits
    match assign_tasks today slots tasks energy_profile with
    | none => none
    | some (out, storeF, _) => some (out, storeF)

/-! ### Specification-side definitions

These follow the spec's wording (not the source) and are compared against the
source-derived definitions above. -/

/-- Spec wording: "priority 1 → 3.0, 2 → 2.0, 3 → 1.0" (meaningful on 1..3). -/
def prioTermSpec (p : ℤ) : ℚ :=
  if p = 1 then 3 else if p = 2 then 2 else 1

/-- Spec wording: "if a deadline exists, urgency = max(0, 4.0 - days/2) ...
if no deadline, fixed urgency 0.8". -/
def urgencySpec (today : ℤ) (dl : Option ℤ) : ℚ :=
  match dl with
  | some d => max 0 (4 - ((d - today : ℤ) : ℚ) / 2)
  | none => 0.8

/-- Spec wording: "1.2 if the task's energy requirement is ≤ the slot's energy
level on the ordinal scale low<medium<high, else 0.6". -/
def energyFitSpec (taskEnergy slotE : String) : ℚ :=
  if ENERGY_ORDER taskEnergy ≤ ENERGY_ORDER slotE then 1.2 else 0.6

/-- Spec wording: "1.2 if remaining minutes ≤ 60, else 1.0". -/
def shortBonusSpec (m : ℤ) : ℚ :=
  if m ≤ 60 then 1.2 else 1.0

/-- Number of work-kind blocks strictly before position `n` — the claim C5
notion of "work-slot index, counting only work blocks". -/
def workCountBefore (slots : List Block) (n : ℕ) : ℕ :=
  ((slots.take n).filter (fun b => b.kind = "work")).length

/-- Contiguity checker: starting from cursor `c`, every block must start
exactly at the running cursor and be nonempty; returns the final cursor.
`chainFromEnd c l = some e` says the blocks of `l` tile `[c, e)` exactly,
in order, with no gap and no overlap. -/
def chainFromEnd (c : ℤ) : List Block → Option ℤ
  | [] => some c
  | b :: bs => if b.start = c ∧ c < b.endTime then chainFromEnd b.endTime bs else none

/-- Spec wording for habit insertion: the index of the first work block whose
duration is at least the habit's minutes and which has no task assigned. -/
def firstEligible (h : Habit) : List Block → Option ℕ
  | [] => none
  | s :: rest =>
    if s.kind = "work" ∧ s.endTime - s.start ≥ h.minutes ∧ s.task_title = none then some 0
    else (firstEligible h rest).map (fun i => i + 1)

/-! ### Helper lemmas on the slot builder -/

/-- Unfolds the overlap test into arithmetic. -/
theorem collides_true_iff (a b c d : ℤ) :
    collides a b c d = true ↔ c < b ∧ a < d := by
  simp [collides]

/-- A hit of the fixed-block scan is a member of the list and collides with
the tentative interval. -/
theorem findCollided_eq_some {cur nextEnd : ℤ} {F : List FixedBlock} {fb : FixedBlock}
    (h : findCollided cur nextEnd F = some fb) :
    fb ∈ F ∧ collides cur nextEnd fb.start fb.endTime = true := by
  induction F with
  | nil => cases h
  | cons g gs ih =>
    by_cases hg : collides cur nextEnd g.start g.endTime = true
    · rw [findCollided, if_pos hg] at h
      cases h
      exact ⟨List.mem_cons_self _ _, hg⟩
    · rw [findCollided, if_neg hg] at h
      obtain ⟨hm, hc⟩ := ih h
      exact ⟨List.mem_cons_of_mem _ hm, hc⟩

/-- When the fixed-block scan misses, no fixed block collides with the
tentative interval. -/
theorem findCollided_eq_none {cur nextEnd : ℤ} {F : List FixedBlock}
    (h : findCollided cur nextEnd F = none) :
    ∀ fb ∈ F, collides cur nextEnd fb.start fb.endTime = false := by
  induction F with
  | nil => intro fb hfb; cases hfb
  | cons g gs ih =>
    intro fb hfb
    by_cases hg : collides cur nextEnd g.start g.endTime = true
    · rw [findCollided, if_pos hg] at h; cases h
    · rw [findCollided, if_neg hg] at h
      rcases List.mem_cons.mp hfb with hfb | hfb
      · subst hfb; exact Bool.eq_false_iff.mpr hg
      · exact ih h fb hfb

/-- Complement of `collides_true_iff`. -/
theorem collides_false_iff (a b c d : ℤ) :
    collides a b c d = false ↔ b ≤ c ∨ d ≤ a := by
  rw [← Bool.not_eq_true, collides_true_iff]
  omega

/-- Membership is preserved by the insertion step of the sort. -/
theorem mem_insertByStart (g fb : FixedBlock) :
    ∀ l : List FixedBlock, fb ∈ insertByStart g l ↔ fb = g ∨ fb ∈ l := by
  intro l
  induction l with
  | nil => simp [insertByStart]
  | cons b bs ih =>
    rw [insertByStart]
    by_cases hg : g.start ≤ b.start
    · rw [if_pos hg]
      simp
    · rw [if_neg hg]
      simp only [List.mem_cons, ih]
      tauto

/-- `sortFixed` preserves membership. -/
theorem mem_sortFixed (fb : FixedBlock) :
    ∀ l : List FixedBlock, fb ∈ sortFixed l ↔ fb ∈ l := by
  intro l
  induction l with
  | nil => simp [sortFixed]
  | cons b bs ih =>
    rw [sortFixed, mem_insertByStart]
    simp only [List.mem_cons, ih]

/-- The insertion step keeps the list sorted by start time. -/
theorem pairwise_insertByStart (g : FixedBlock) :
    ∀ l : List FixedBlock, List.Pairwise (fun a b => a.start ≤ b.start) l →
      List.Pairwise (fun a b => a.start ≤ b.start) (insertByStart g l) := by
  intro l
  induction l with
  | nil => intro _; exact List.pairwise_singleton _ _
  | cons b bs ih =>
    intro h
    rw [insertByStart]
    by_cases hg : g.start ≤ b.start
    · rw [if_pos hg]
      refine List.Pairwise.cons ?_ h
      intro x hx
      rcases List.mem_cons.mp hx with hx | hx
      · subst hx; exact hg
      · exact le_trans hg (List.rel_of_pairwise_cons h hx)
    · rw [if_neg hg]
      refine List.Pairwise.cons ?_ (ih (List.Pairwise.of_cons h))
      intro x hx
      rcases (mem_insertByStart g x bs).mp hx with hx | hx
      · subst hx; omega
      · exact List.rel_of_pairwise_cons h hx

/-- `sortFixed` sorts by start time. -/
theorem sortFixed_sorted :
    ∀ l : List FixedBlock, List.Pairwise (fun a b => a.start ≤ b.start) (sortFixed l) := by
  intro l
  induction l with
  | nil => exact List.Pairwise.nil
  | cons b bs ih => exact pairwise_insertByStart b (sortFixed bs) ih

/-- On a start-sorted list, the first colliding fixed block has the smallest
start among all colliding ones — the spec's tie-break policy. -/
theorem findCollided_first {cur nextEnd : ℤ} {F : List FixedBlock} {fb0 : FixedBlock}
    (hsorted : List.Pairwise (fun a b => a.start ≤ b.start) F)
    (h : findCollided cur nextEnd F = some fb0) :
    ∀ fb ∈ F, collides cur nextEnd fb.start fb.endTime = true → fb0.start ≤ fb.start := by
  induction F with
  | nil => cases h
  | cons g gs ih =>
    intro fb hfb hcoll
    by_cases hg : collides cur nextEnd g.start g.endTime = true
    · rw [findCollided, if_pos hg] at h
      cases h
      rcases List.mem_cons.mp hfb with hfb | hfb
      · subst hfb; exact le_refl _
      · exact List.rel_of_pairwise_cons hsorted hfb
    · rw [findCollided, if_neg hg] at h
      rcases List.mem_cons.mp hfb with hfb | hfb
      · subst hfb; exact absurd hcoll hg
      · exact ih (List.Pairwise.of_cons hsorted) h fb hfb hcoll

/-- Emission of fixed blocks by the loop: with zero break minutes, a sorted
pairwise-disjoint fixed-block list and nonempty fixed intervals, every fixed
block lying ahead of the cursor and ending by `end_dt` is emitted with its
exact bounds and title. -/
theorem buildSlotsGo_emits_fixed (blockM breakM endDt : ℤ) (F : List FixedBlock)
    (hsorted : List.Pairwise (fun a b => a.start ≤ b.start) F)
    (hdisj : ∀ a ∈ F, ∀ b ∈ F, a ≠ b → a.endTime ≤ b.start ∨ b.endTime ≤ a.start)
    (hne : ∀ fb ∈ F, fb.start < fb.endTime)
    (hbreak : breakM ≤ 0) :
    ∀ (fuel : ℕ) (cur : ℤ) (slots : List Block),
      buildSlotsGo blockM breakM endDt F fuel cur = some slots →
      ∀ fb ∈ F, cur ≤ fb.start → fb.endTime ≤ endDt →
        ∃ b ∈ slots, b.start = fb.start ∧ b.endTime = fb.endTime ∧ b.kind = "fixed" ∧
          b.task_title = some fb.title := by
  intro fuel
  induction fuel with
  | zero =>
    intro cur slots h fb hfb hcur hend
    rw [buildSlotsGo] at h
    by_cases hc : cur < endDt
    · rw [if_pos hc] at h; cases h
    · have := hne fb hfb
      omega
  | succ n ih =>
    intro cur slots h fb hfb hcur hend
    by_cases hc : cur < endDt
    · simp only [buildSlotsGo, if_pos hc] at h
      cases hcol : findCollided cur (cur + blockM) F with
      | some g =>
        rw [hcol] at h
        obtain ⟨rest, hrest, hslots⟩ := Option.map_eq_some'.mp h
        subst hslots
        by_cases hfg : fb = g
        · subst hfg
          exact ⟨⟨fb.start, fb.endTime, "fixed", some fb.title⟩, List.mem_cons_self _ _,
            rfl, rfl, rfl, rfl⟩
        · obtain ⟨hgmem, hgcoll⟩ := findCollided_eq_some hcol
          have hgc := (collides_true_iff _ _ _ _).mp hgcoll
          have hahead : g.endTime ≤ fb.start := by
            rcases hdisj fb hfb g hgmem hfg with hcase | hcase
            · exfalso
              have hfbne := hne fb hfb
              have hfbcoll : collides cur (cur + blockM) fb.start fb.endTime = true :=
                (collides_true_iff _ _ _ _).mpr ⟨by omega, by omega⟩
              have := findCollided_first hsorted hcol fb hfb hfbcoll
              omega
            · exact hcase
          obtain ⟨b, hbmem, hb⟩ := ih g.endTime rest hrest fb hfb (by omega) hend
          exact ⟨b, List.mem_cons_of_mem _ hbmem, hb⟩
      | none =>
        rw [hcol] at h
        have hbr : ¬(breakM > 0 ∧ cur + blockM < endDt) := by omega
        rw [if_neg hbr] at h
        obtain ⟨rest, hrest, hslots⟩ := Option.map_eq_some'.mp h
        subst hslots
        have hnc := findCollided_eq_none hcol fb hfb
        have hnc' := (collides_false_iff _ _ _ _).mp hnc
        have hfbne := hne fb hfb
        have hnext : cur + blockM ≤ fb.start := by omega
        obtain ⟨b, hbmem, hb⟩ := ih (cur + blockM) rest hrest fb hfb hnext hend
        exact ⟨b, List.mem_cons_of_mem _ hbmem, hb⟩
    · rw [buildSlotsGo, if_neg hc] at h
      have := hne fb hfb
      omega

/-- A work block is emitted only when the collision scan misses, so it never
overlaps any fixed block of the list. -/
theorem buildSlotsGo_work_no_overlap (blockM breakM endDt : ℤ) (F : List FixedBlock) :
    ∀ (fuel : ℕ) (cur : ℤ) (slots : List Block),
      buildSlotsGo blockM breakM endDt F fuel cur = some slots →
      ∀ b ∈ slots, b.kind = "work" →
        ∀ fb ∈ F, collides b.start b.endTime fb.start fb.endTime = false := by
  intro fuel
  induction fuel with
  | zero =>
    intro cur slots h b hb
    rw [buildSlotsGo] at h
    by_cases hc : cur < endDt
    · rw [if_pos hc] at h; cases h
    · rw [if_neg hc] at h
      injection h with h
      subst h
      cases hb
  | succ n ih =>
    intro cur slots h b hb hbk
    by_cases hc : cur < endDt
    · simp only [buildSlotsGo, if_pos hc] at h
      cases hcol : findCollided cur (cur + blockM) F with
      | some g =>
        rw [hcol] at h
        obtain ⟨rest, hrest, hslots⟩ := Option.map_eq_some'.mp h
        subst hslots
        rcases List.mem_cons.mp hb with hb | hb
        · subst hb; exact absurd hbk (by decide : ("fixed" : String) ≠ "work")
        · exact ih _ _ hrest b hb hbk
      | none =>
        rw [hcol] at h
        by_cases hbr : breakM > 0 ∧ cur + blockM < endDt
        · rw [if_pos hbr] at h
          obtain ⟨rest, hrest, hslots⟩ := Option.map_eq_some'.mp h
          subst hslots
          rcases List.mem_cons.mp hb with hb | hb
          · subst hb
            exact findCollided_eq_none hcol
          · rcases List.mem_cons.mp hb with hb | hb
            · subst hb; exact absurd hbk (by decide : ("break" : String) ≠ "work")
            · exact ih _ _ hrest b hb hbk
        · rw [if_neg hbr] at h
          obtain ⟨rest, hrest, hslots⟩ := Option.map_eq_some'.mp h
          subst hslots
          rcases List.mem_cons.mp hb with hb | hb
          · subst hb
            exact findCollided_eq_none hcol
          · exact ih _ _ hrest b hb hbk
    · rw [buildSlotsGo, if_neg hc] at h
      injection h with h
      subst h
      cases hb

/-- With zero break minutes the loop emits no break blocks at all. -/
theorem buildSlotsGo_no_breaks (blockM breakM endDt : ℤ) (F : List FixedBlock)
    (hbreak : breakM ≤ 0) :
    ∀ (fuel : ℕ) (cur : ℤ) (slots : List Block),
      buildSlotsGo blockM breakM endDt F fuel cur = some slots →
      ∀ b ∈ slots, b.kind ≠ "break" := by
  intro fuel
  induction fuel with
  | zero =>
    intro cur slots h b hb
    rw [buildSlotsGo] at h
    by_cases hc : cur < endDt
    · rw [if_pos hc] at h; cases h
    · rw [if_neg hc] at h
      injection h with h
      subst h
      cases hb
  | succ n ih =>
    intro cur slots h b hb
    by_cases hc : cur < endDt
    · simp only [buildSlotsGo, if_pos hc] at h
      cases hcol : findCollided cur (cur + blockM) F with
      | some g =>
        rw [hcol] at h
        obtain ⟨rest, hrest, hslots⟩ := Option.map_eq_some'.mp h
        subst hslots
        rcases List.mem_cons.mp hb with hb | hb
        · subst hb; exact fun hk => absurd hk (by decide : ¬("fixed" : String) = "break")
        · exact ih _ _ hrest b hb
      | none =>
        rw [hcol] at h
        have hbr : ¬(breakM > 0 ∧ cur + blockM < endDt) := by omega
        rw [if_neg hbr] at h
        obtain ⟨rest, hrest, hslots⟩ := Option.map_eq_some'.mp h
        subst hslots
        rcases List.mem_cons.mp hb with hb | hb
        · subst hb; exact fun hk => absurd hk (by decide : ¬("work" : String) = "break")
        · exact ih _ _ hrest b hb
    · rw [buildSlotsGo, if_neg hc] at h
      injection h with h
      subst h
      cases hb

/-- Fuel sufficiency for the slot-building loop: when `block_minutes ≥ 1`
every iteration advances the cursor by at least one minute (by
`block_minutes` plus possibly `break_minutes` in the work branch, or to the
colliding fixed block's strictly later end in the fixed branch), so
`(end_dt - cur).toNat` iterations suffice. -/
theorem buildSlotsGo_isSome (blockM breakM endDt : ℤ) (F : List FixedBlock)
    (hb : 1 ≤ blockM) :
    ∀ (fuel : ℕ) (cur : ℤ), (endDt - cur).toNat ≤ fuel →
      (buildSlotsGo blockM breakM endDt F fuel cur).isSome := by
  intro fuel
  induction fuel with
  | zero =>
    intro cur hf
    have hc : ¬cur < endDt := by omega
    simp [buildSlotsGo, hc]
  | succ n ih =>
    intro cur hf
    by_cases hc : cur < endDt
    · simp only [buildSlotsGo, if_pos hc]
      cases hcol : findCollided cur (cur + blockM) F with
      | some fb =>
        have h2 := (findCollided_eq_some hcol).2
        have h3 : cur < fb.endTime := ((collides_true_iff _ _ _ _).mp h2).2
        have h4 := ih fb.endTime (by omega)
        obtain ⟨l, hl⟩ := Option.isSome_iff_exists.mp h4
        simp [hl]
      | none =>
        by_cases hbr : breakM > 0 ∧ cur + blockM < endDt
        · rw [if_pos hbr]
          have h4 := ih (cur + blockM + breakM) (by omega)
          obtain ⟨l, hl⟩ := Option.isSome_iff_exists.mp h4
          simp [hl]
        · rw [if_neg hbr]
          have h4 := ih (cur + blockM) (by omega)
          obtain ⟨l, hl⟩ := Option.isSome_iff_exists.mp h4
          simp [hl]
    · simp [buildSlotsGo, hc]

/-- With no fixed blocks and `block_minutes ≥ 1`, a successful run of the
loop tiles `[cur, e)` contiguously for some `e ≥ end_dt`. -/
theorem buildSlotsGo_nil_chain (blockM breakM endDt : ℤ) (hb : 1 ≤ blockM) :
    ∀ (fuel : ℕ) (cur : ℤ) (slots : List Block),
      buildSlotsGo blockM breakM endDt [] fuel cur = some slots →
      ∃ e, chainFromEnd cur slots = some e ∧ endDt ≤ e := by
  intro fuel
  induction fuel with
  | zero =>
    intro cur slots h
    rw [buildSlotsGo] at h
    by_cases hc : cur < endDt
    · rw [if_pos hc] at h
      cases h
    · rw [if_neg hc] at h
      injection h with h
      subst h
      exact ⟨cur, by rw [chainFromEnd], by omega⟩
  | succ n ih =>
    intro cur slots h
    by_cases hc : cur < endDt
    · simp only [buildSlotsGo, if_pos hc, findCollided] at h
      by_cases hbr : breakM > 0 ∧ cur + blockM < endDt
      · rw [if_pos hbr] at h
        obtain ⟨rest, hrest, hslots⟩ := Option.map_eq_some'.mp h
        subst hslots
        obtain ⟨e, he, hee⟩ := ih _ _ hrest
        refine ⟨e, ?_, hee⟩
        rw [chainFromEnd, if_pos ⟨rfl, show cur < cur + blockM by omega⟩,
          chainFromEnd, if_pos ⟨rfl, show cur + blockM < cur + blockM + breakM by omega⟩]
        exact he
      · rw [if_neg hbr] at h
        obtain ⟨rest, hrest, hslots⟩ := Option.map_eq_some'.mp h
        subst hslots
        obtain ⟨e, he, hee⟩ := ih _ _ hrest
        refine ⟨e, ?_, hee⟩
        rw [chainFromEnd, if_pos ⟨rfl, show cur < cur + blockM by omega⟩]
        exact he
    · rw [buildSlotsGo, if_neg hc] at h
      injection h with h
      subst h
      exact ⟨cur, by rw [chainFromEnd], by omega⟩

/-- A contiguous tiling covers every instant of `[c, e)`. -/
theorem chainFromEnd_cover :
    ∀ (l : List Block) (c e : ℤ), chainFromEnd c l = some e →
      ∀ t : ℤ, c ≤ t → t < e → ∃ b ∈ l, b.start ≤ t ∧ t < b.endTime := by
  intro l
  induction l with
  | nil =>
    intro c e h t h1 h2
    rw [chainFromEnd] at h
    cases h
    omega
  | cons b bs ih =>
    intro c e h t h1 h2
    rw [chainFromEnd] at h
    by_cases hcond : b.start = c ∧ c < b.endTime
    · rw [if_pos hcond] at h
      by_cases ht : t < b.endTime
      · exact ⟨b, List.mem_cons_self _ _, by omega, ht⟩
      · obtain ⟨b', hmem, hb'⟩ := ih _ _ h t (by omega) h2
        exact ⟨b', List.mem_cons_of_mem _ hmem, hb'⟩
    · rw [if_neg hcond] at h
      cases h

/-- Blocks of a contiguous tiling lie inside `[c, e)` and the bounds are
ordered. -/
theorem chainFromEnd_le :
    ∀ (l : List Block) (c e : ℤ), chainFromEnd c l = some e →
      c ≤ e ∧ ∀ b ∈ l, c ≤ b.start ∧ b.endTime ≤ e := by
  intro l
  induction l with
  | nil =>
    intro c e h
    rw [chainFromEnd] at h
    cases h
    exact ⟨le_refl _, by intro b hb; cases hb⟩
  | cons b bs ih =>
    intro c e h
    rw [chainFromEnd] at h
    by_cases hcond : b.start = c ∧ c < b.endTime
    · rw [if_pos hcond] at h
      obtain ⟨h1, h2⟩ := ih _ _ h
      refine ⟨by omega, ?_⟩
      intro b' hb'
      rcases List.mem_cons.mp hb' with hb' | hb'
      · subst hb'
        exact ⟨by omega, by omega⟩
      · obtain ⟨h3, h4⟩ := h2 b' hb'
        exact ⟨by omega, h4⟩
    · rw [if_neg hcond] at h
      cases h

/-- A contiguous tiling is pairwise non-overlapping: every block ends before
any later block starts. -/
theorem chainFromEnd_pairwise :
    ∀ (l : List Block) (c e : ℤ), chainFromEnd c l = some e →
      List.Pairwise (fun b1 b2 => b1.endTime ≤ b2.start) l := by
  intro l
  induction l with
  | nil => intro c e h; exact List.Pairwise.nil
  | cons b bs ih =>
    intro c e h
    rw [chainFromEnd] at h
    by_cases hcond : b.start = c ∧ c < b.endTime
    · rw [if_pos hcond] at h
      refine List.Pairwise.cons ?_ (ih _ _ h)
      intro b' hb'
      exact ((chainFromEnd_le bs b.endTime e h).2 b' hb').1
    · rw [if_neg hcond] at h
      cases h

/-! ### C1 -/

/-- C1 counterexample: on the day 0..90 with 60-minute blocks and 10-minute
breaks and no fixed blocks, the builder emits the work block 70..130, which
extends 40 minutes past `day_end = 90`; hence the tentative end of a work
block is not capped at `day_end` and the union of the blocks is not exactly
`[day_start, day_end)`. -/
theorem build_slots_overruns_day_end :
    ∃ slots, build_slots 0 90 60 10 [] = some slots ∧
      ∃ b ∈ slots, b.kind = "work" ∧ 90 < b.endTime :=
  ⟨[⟨0, 60, "work", none⟩, ⟨60, 70, "break", none⟩, ⟨70, 130, "work", none⟩],
    by decide, ⟨70, 130, "work", none⟩, by decide, by decide⟩

/-- C1 amended: with no fixed blocks, `day_start < day_end` and positive
block and break lengths, the slot builder succeeds and its blocks are
contiguous from `day_start` (each block starts where the previous one ends),
pairwise non-overlapping, and their union is exactly `[day_start, e)` for the
final cursor `e ≥ day_end`: they cover all of `[day_start, day_end)` but the
last block may extend past `day_end` (no capping exists in the code). -/
theorem build_slots_no_fixed_contiguous_covers
    (day_start day_end block_minutes break_minutes : ℤ)
    (h1 : day_start < day_end) (h2 : 1 ≤ block_minutes) (h3 : 1 ≤ break_minutes) :
    ∃ slots e,
      build_slots day_start day_end block_minutes break_minutes [] = some slots ∧
      chainFromEnd day_start slots = some e ∧ day_end ≤ e ∧
      List.Pairwise (fun b1 b2 => b1.endTime ≤ b2.start) slots ∧
      (∀ t : ℤ, day_start ≤ t → t < day_end → ∃ b ∈ slots, b.start ≤ t ∧ t < b.endTime) ∧
      (∀ b ∈ slots, day_start ≤ b.start ∧ b.endTime ≤ e) := by
  have hsome := buildSlotsGo_isSome block_minutes break_minutes day_end [] h2
    (day_end - day_start).toNat day_start (le_refl _)
  obtain ⟨slots, hs⟩ := Option.isSome_iff_exists.mp hsome
  have hbs : build_slots day_start day_end block_minutes break_minutes [] = some slots := by
    simpa [build_slots, sortFixed] using hs
  obtain ⟨e, he, hee⟩ := buildSlotsGo_nil_chain _ _ _ h2 _ _ _ hs
  refine ⟨slots, e, hbs, he, hee, chainFromEnd_pairwise _ _ _ he, ?_, ?_⟩
  · intro t ht1 ht2
    exact chainFromEnd_cover _ _ _ he t ht1 (by omega)
  · exact (chainFromEnd_le _ _ _ he).2

/-- C1 amended witness: the theorem at day 0..90, 60-minute blocks,
10-minute breaks. -/
theorem build_slots_no_fixed_contiguous_covers_witness :
    (0 : ℤ) < 90 ∧ (1 : ℤ) ≤ 60 ∧ (1 : ℤ) ≤ 10 ∧
    ∃ slots e,
      build_slots 0 90 60 10 [] = some slots ∧
      chainFromEnd 0 slots = some e ∧ (90 : ℤ) ≤ e ∧
      List.Pairwise (fun b1 b2 => b1.endTime ≤ b2.start) slots ∧
      (∀ t : ℤ, 0 ≤ t → t < 90 → ∃ b ∈ slots, b.start ≤ t ∧ t < b.endTime) ∧
      (∀ b ∈ slots, 0 ≤ b.start ∧ b.endTime ≤ e) :=
  ⟨by decide, by decide, by decide,
    build_slots_no_fixed_contiguous_covers 0 90 60 10 (by decide) (by decide) (by decide)⟩

/-! ### C2 -/

/-- C2 (code bug): `remaining = tasks.copy()` is a shallow copy, so
`best.minutes -= minutes_in_slot` mutates the caller's own Task record.
Concretely: a single 60-minute task planned into a single 60-minute work slot
leaves the caller's record with `minutes = 0`, not the original 60.  The
second component of `generate_plan`'s result is the caller's task list after
the call. -/
theorem generate_plan_mutates_caller_records :
    generate_plan 0 [⟨"X", 60, 2, "medium", none, [], none, [], [], none⟩] [] 0 60 60 10 [] [] =
      some ([(⟨0, 60, "work", some "X"⟩, some 0)],
        [⟨"X", 0, 2, "medium", none, [], none, [], [], none⟩]) ∧
    (0 : ℤ) ≠ 60 := by
  refine ⟨?_, by decide⟩
  have hb : build_slots 0 60 60 10 [] = some [⟨0, 60, "work", none⟩] := by decide
  have hr : List.range 1 = [0] := by decide
  simp [generate_plan, hb, insertHabits, assign_tasks, hr, assignGo, assignStep,
    candidatesOf, depOK, remainingTitles, getT, slotEnergy, pickBest, pickBestGo, score,
    prioTable, minutesInSlot, decMinutes, removeFirstEq, morning_boost, ENERGY_ORDER, defaultTask]

/-! ### C3 -/

/-- C3 counterexample: day 540..660 (09:00-11:00), 60-minute blocks,
30-minute breaks, one fixed block 610..620 wholly inside the day.  The break
600..630 is emitted without any collision check and overlaps the fixed block,
after which the cursor has passed it: no `fixed`-kind block for 610..620 ever
appears in the sequence. -/
theorem break_overlaps_fixed_block_cex :
    ∃ slots, build_slots 540 660 60 30 [⟨610, 620, "Standup"⟩] = some slots ∧
      ((540 : ℤ) ≤ 610 ∧ (620 : ℤ) ≤ 660 ∧ (610 : ℤ) < 620) ∧
      (∀ b ∈ slots,
        ¬(b.kind = "fixed" ∧ b.start = 610 ∧ b.endTime = 620 ∧ b.task_title = some "Standup")) ∧
      ∃ b ∈ slots, b.kind = "break" ∧ collides b.start b.endTime 610 620 = true :=
  ⟨[⟨540, 600, "work", none⟩, ⟨600, 630, "break", none⟩, ⟨630, 690, "work", none⟩],
    by decide, by decide, by decide,
    ⟨600, 630, "break", none⟩, by decide, by decide⟩

/-- C3 amended: (a) a work block is emitted only after the collision scan
misses every fixed block, so no work block ever overlaps any fixed block,
for any break length; (b) when `break_minutes = 0` (so that no unchecked
break blocks exist) and the fixed blocks are pairwise disjoint nonempty
intervals, every fixed block wholly within `[day_start, day_end)` appears in
the built sequence with exactly its start, end and title, and no work or
break block overlaps any fixed block. -/
theorem fixed_blocks_emitted_and_unoverlapped
    (day_start day_end block_minutes : ℤ) (F : List FixedBlock)
    (hdisj : ∀ a ∈ F, ∀ b ∈ F, a ≠ b → a.endTime ≤ b.start ∨ b.endTime ≤ a.start)
    (hne : ∀ fb ∈ F, fb.start < fb.endTime) :
    (∀ (break_minutes : ℤ) (slots : List Block),
      build_slots day_start day_end block_minutes break_minutes F = some slots →
      ∀ b ∈ slots, b.kind = "work" →
        ∀ fb ∈ F, collides b.start b.endTime fb.start fb.endTime = false) ∧
    ∀ slots : List Block,
      build_slots day_start day_end block_minutes 0 F = some slots →
      (∀ b ∈ slots, b.kind ≠ "break") ∧
      ∀ fb ∈ F, day_start ≤ fb.start → fb.endTime ≤ day_end →
        ∃ b ∈ slots, b.start = fb.start ∧ b.endTime = fb.endTime ∧ b.kind = "fixed" ∧
          b.task_title = some fb.title := by
  have hsorted := sortFixed_sorted F
  have hmem : ∀ fb, fb ∈ sortFixed F ↔ fb ∈ F := fun fb => mem_sortFixed fb F
  constructor
  · intro break_minutes slots h b hb hbk fb hfb
    rw [build_slots] at h
    exact buildSlotsGo_work_no_overlap _ _ _ _ _ _ _ h b hb hbk fb ((hmem fb).mpr hfb)
  · intro slots h
    rw [build_slots] at h
    constructor
    · exact buildSlotsGo_no_breaks _ _ _ _ (le_refl 0) _ _ _ h
    · intro fb hfb h1 h2
      refine buildSlotsGo_emits_fixed block_minutes 0 day_end (sortFixed F) hsorted
        ?_ ?_ (le_refl 0) _ _ _ h fb ((hmem fb).mpr hfb) h1 h2
      · intro a ha b hb hab
        exact hdisj a ((hmem a).mp ha) b ((hmem b).mp hb) hab
      · intro g hg
        exact hne g ((hmem g).mp hg)

/-- C3 amended witness: one fixed block 40..50 wholly inside the day 0..100,
30-minute blocks, no breaks. -/
theorem fixed_blocks_emitted_and_unoverlapped_witness :
    (∀ a ∈ [(⟨40, 50, "m"⟩ : FixedBlock)], ∀ b ∈ [(⟨40, 50, "m"⟩ : FixedBlock)],
      a ≠ b → a.endTime ≤ b.start ∨ b.endTime ≤ a.start) ∧
    (∀ fb ∈ [(⟨40, 50, "m"⟩ : FixedBlock)], fb.start < fb.endTime) ∧
    ((∀ (break_minutes : ℤ) (slots : List Block),
      build_slots 0 100 30 break_minutes [⟨40, 50, "m"⟩] = some slots →
      ∀ b ∈ slots, b.kind = "work" →
        ∀ fb ∈ [(⟨40, 50, "m"⟩ : FixedBlock)],
          collides b.start b.endTime fb.start fb.endTime = false) ∧
    ∀ slots : List Block,
      build_slots 0 100 30 0 [⟨40, 50, "m"⟩] = some slots →
      (∀ b ∈ slots, b.kind ≠ "break") ∧
      ∀ fb ∈ [(⟨40, 50, "m"⟩ : FixedBlock)], (0 : ℤ) ≤ fb.start → fb.endTime ≤ 100 →
        ∃ b ∈ slots, b.start = fb.start ∧ b.endTime = fb.endTime ∧ b.kind = "fixed" ∧
          b.task_title = some fb.title) :=
  ⟨by decide, by decide,
    fixed_blocks_emitted_and_unoverlapped 0 100 30 [⟨40, 50, "m"⟩] (by decide) (by decide)⟩

/-! ### C4 -/

/-- C4: for a task with priority in 1..3 the score is exactly the additive
weighted sum `prio*1.6 + urgency*1.1 + energy_fit*1.0 + short_bonus*0.5 +
morning_boost*0.4` of the five spec-described terms. -/
theorem score_is_additive_weighted_sum (today : ℤ) (t : Task) (idx : ℕ) (e : String)
    (h : t.priority = 1 ∨ t.priority = 2 ∨ t.priority = 3) :
    score today t idx e =
      some (prioTermSpec t.priority * 1.6 + urgencySpec today t.deadline * 1.1 +
        energyFitSpec t.energy e * 1.0 + shortBonusSpec t.minutes * 0.5 +
        morning_boost idx t.priority * 0.4) := by
  rcases h with h | h | h <;>
    simp [score, prioTable, prioTermSpec, urgencySpec, energyFitSpec, shortBonusSpec, h]

/-- C4 witness: the theorem applied to a concrete task, slot and day. -/
theorem score_is_additive_weighted_sum_witness :
    ((⟨"w", 30, 1, "low", some 1, [], none, [], [], none⟩ : Task).priority = 1 ∨
      (⟨"w", 30, 1, "low", some 1, [], none, [], [], none⟩ : Task).priority = 2 ∨
      (⟨"w", 30, 1, "low", some 1, [], none, [], [], none⟩ : Task).priority = 3) ∧
    score 0 ⟨"w", 30, 1, "low", some 1, [], none, [], [], none⟩ 0 "high" =
      some (prioTermSpec 1 * 1.6 + urgencySpec 0 (some 1) * 1.1 +
        energyFitSpec "low" "high" * 1.0 + shortBonusSpec 30 * 0.5 + morning_boost 0 1 * 0.4) :=
  ⟨Or.inl rfl,
    score_is_additive_weighted_sum 0 ⟨"w", 30, 1, "low", some 1, [], none, [], [], none⟩ 0 "high"
      (Or.inl rfl)⟩

/-! ### C5 -/

/-- C5 counterexample: the morning boost is computed from the `enumerate`
index over all emitted blocks, not from a work-only count.  On the day
540..780 with 60-minute blocks and 30-minute breaks, position 4 is the third
work slot (`workCountBefore = 2 ≤ 2`), yet `morning_boost 4 1 = 1`, not 1.15.
Behaviourally: priority-1 task "A" (deadline in 5 days) beats priority-2 task
"B" (deadline in 2 days) on the first two work slots thanks to the boost, but
loses the third work slot because the boost is gone at overall index 4, so
the plan assigns "B" there — under the claim's work-only counting "A" would
still be boosted and would win. -/
theorem morning_boost_work_index_cex :
    ∃ slots out storeF,
      build_slots 540 780 60 30 [] = some slots ∧
      workCountBefore slots 4 = 2 ∧
      (slots.getD 4 ⟨0, 0, "", none⟩).kind = "work" ∧
      morning_boost 4 1 = 1 ∧ (1 : ℚ) ≠ 1.15 ∧
      generate_plan 0
          [⟨"A", 200, 1, "medium", some 5, [], none, [], [], none⟩,
            ⟨"B", 200, 2, "medium", some 2, [], none, [], [], none⟩]
          [] 540 780 60 30 [] [] = some (out, storeF) ∧
      (out.getD 4 (⟨0, 0, "", none⟩, none)).1.task_title = some "B" := by
  refine ⟨[⟨540, 600, "work", none⟩, ⟨600, 630, "break", none⟩, ⟨630, 690, "work", none⟩,
      ⟨690, 720, "break", none⟩, ⟨720, 780, "work", none⟩],
    [(⟨540, 600, "work", some "A"⟩, some 0), (⟨600, 630, "break", none⟩, none),
      (⟨630, 690, "work", some "A"⟩, some 0), (⟨690, 720, "break", none⟩, none),
      (⟨720, 780, "work", some "B"⟩, some 1)],
    [⟨"A", 80, 1, "medium", some 5, [], none, [], [], none⟩,
      ⟨"B", 140, 2, "medium", some 2, [], none, [], [], none⟩],
    by decide, by decide, by decide, by norm_num [morning_boost], by norm_num, ?_, by decide⟩
  have hb : build_slots 540 780 60 30 [] =
      some [⟨540, 600, "work", none⟩, ⟨600, 630, "break", none⟩, ⟨630, 690, "work", none⟩,
        ⟨690, 720, "break", none⟩, ⟨720, 780, "work", none⟩] := by decide
  have h0 : assignStep 0 [] 0 ⟨540, 600, "work", none⟩
      [⟨"A", 200, 1, "medium", some 5, [], none, [], [], none⟩,
        ⟨"B", 200, 2, "medium", some 2, [], none, [], [], none⟩] [0, 1] =
      some (⟨540, 600, "work", some "A"⟩, some 0,
        [⟨"A", 140, 1, "medium", some 5, [], none, [], [], none⟩,
          ⟨"B", 200, 2, "medium", some 2, [], none, [], [], none⟩], [0, 1]) := by
    norm_num [assignStep, candidatesOf, depOK, remainingTitles, getT, slotEnergy, pickBest,
      pickBestGo, score, prioTable, minutesInSlot, decMinutes, removeFirstEq, morning_boost,
      ENERGY_ORDER, defaultTask, max_def]
    all_goals decide
  have h1 : assignStep 0 [] 1 ⟨600, 630, "break", none⟩
      [⟨"A", 140, 1, "medium", some 5, [], none, [], [], none⟩,
        ⟨"B", 200, 2, "medium", some 2, [], none, [], [], none⟩] [0, 1] =
      some (⟨600, 630, "break", none⟩, none,
        [⟨"A", 140, 1, "medium", some 5, [], none, [], [], none⟩,
          ⟨"B", 200, 2, "medium", some 2, [], none, [], [], none⟩], [0, 1]) := by decide
  have h2 : assignStep 0 [] 2 ⟨630, 690, "work", none⟩
      [⟨"A", 140, 1, "medium", some 5, [], none, [], [], none⟩,
        ⟨"B", 200, 2, "medium", some 2, [], none, [], [], none⟩] [0, 1] =
      some (⟨630, 690, "work", some "A"⟩, some 0,
        [⟨"A", 80, 1, "medium", some 5, [], none, [], [], none⟩,
          ⟨"B", 200, 2, "medium", some 2, [], none, [], [], none⟩], [0, 1]) := by
    norm_num [assignStep, candidatesOf, depOK, remainingTitles, getT, slotEnergy, pickBest,
      pickBestGo, score, prioTable, minutesInSlot, decMinutes, removeFirstEq, morning_boost,
      ENERGY_ORDER, defaultTask, max_def]
    all_goals decide
  have h3 : assignStep 0 [] 3 ⟨690, 720, "break", none⟩
      [⟨"A", 80, 1, "medium", some 5, [], none, [], [], none⟩,
        ⟨"B", 200, 2, "medium", some 2, [], none, [], [], none⟩] [0, 1] =
      some (⟨690, 720, "break", none⟩, none,
        [⟨"A", 80, 1, "medium", some 5, [], none, [], [], none⟩,
          ⟨"B", 200, 2, "medium", some 2, [], none, [], [], none⟩], [0, 1]) := by decide
  have h4 : assignStep 0 [] 4 ⟨720, 780, "work", none⟩
      [⟨"A", 80, 1, "medium", some 5, [], none, [], [], none⟩,
        ⟨"B", 200, 2, "medium", some 2, [], none, [], [], none⟩] [0, 1] =
      some (⟨720, 780, "work", some "B"⟩, some 1,
        [⟨"A", 80, 1, "medium", some 5, [], none, [], [], none⟩,
          ⟨"B", 140, 2, "medium", some 2, [], none, [], [], none⟩], [0, 1]) := by
    norm_num [assignStep, candidatesOf, depOK, remainingTitles, getT, slotEnergy, pickBest,
      pickBestGo, score, prioTable, minutesInSlot, decMinutes, removeFirstEq, morning_boost,
      ENERGY_ORDER, defaultTask, max_def]
    all_goals decide
  have hr : List.range 2 = [0, 1] := by decide
  simp [generate_plan, hb, insertHabits, assign_tasks, hr, assignGo, h0, h1, h2, h3, h4]

/-- C5 amended: the boost applied when scoring a task for the slot at overall
position `idx` (counting blocks of every kind) is 1.15 exactly when `idx ≤ 2`
and the task's priority is 1, and 1.0 otherwise; it enters the score with
weight 0.4. -/
theorem morning_boost_uses_overall_slot_index (today : ℤ) (t : Task) (idx : ℕ)
    (e : String) (p : ℚ) (h : prioTable t.priority = some p) :
    score today t idx e =
      some (p * 1.6 + urgencySpec today t.deadline * 1.1 + energyFitSpec t.energy e * 1.0 +
        shortBonusSpec t.minutes * 0.5 + morning_boost idx t.priority * 0.4) ∧
    (morning_boost idx t.priority = 1.15 ↔ idx ≤ 2 ∧ t.priority = 1) ∧
    (¬(idx ≤ 2 ∧ t.priority = 1) → morning_boost idx t.priority = 1) := by
  have hne : (1.0 : ℚ) ≠ 1.15 := by norm_num
  refine ⟨?_, ?_, ?_⟩
  · simp [score, h, urgencySpec, energyFitSpec, shortBonusSpec]
  · by_cases hc : idx ≤ 2 ∧ t.priority = 1
    · simp [morning_boost, hc]
    · simp [morning_boost, hc, hne]
  · intro hc
    norm_num [morning_boost, hc]

/-- C5 amended witness: the theorem applied at overall index 4 and a concrete
priority-1 task. -/
theorem morning_boost_uses_overall_slot_index_witness :
    prioTable (⟨"A", 200, 1, "medium", some 5, [], none, [], [], none⟩ : Task).priority =
      some 3 ∧
    (score 0 ⟨"A", 200, 1, "medium", some 5, [], none, [], [], none⟩ 4 "medium" =
      some ((3 : ℚ) * 1.6 + urgencySpec 0 (some 5) * 1.1 + energyFitSpec "medium" "medium" * 1.0 +
        shortBonusSpec 200 * 0.5 + morning_boost 4 1 * 0.4) ∧
    (morning_boost 4 1 = 1.15 ↔ 4 ≤ 2 ∧ (1 : ℤ) = 1) ∧
    (¬(4 ≤ 2 ∧ (1 : ℤ) = 1) → morning_boost 4 1 = 1)) :=
  ⟨by norm_num [prioTable],
    morning_boost_uses_overall_slot_index 0
      ⟨"A", 200, 1, "medium", some 5, [], none, [], [], none⟩ 4 "medium" 3
      (by norm_num [prioTable])⟩

/-! ### C9 -/

/-- C9: the assignment pass is a deterministic function of the slot list, the
energy profile, the reference date and the task records: running it on a
fresh copy (an equal list) of the same original task list yields identical
assignments. -/
theorem assign_tasks_deterministic (today : ℤ) (slots : List Block)
    (profile : List String) (store₁ store₂ : List Task) (h : store₁ = store₂) :
    assign_tasks today slots store₁ profile = assign_tasks today slots store₂ profile := by
  rw [h]

/-- C9 witness: two runs on copies of the same one-task list coincide. -/
theorem assign_tasks_deterministic_witness :
    ([⟨"X", 60, 2, "medium", none, [], none, [], [], none⟩] :
        List Task) = [⟨"X", 60, 2, "medium", none, [], none, [], [], none⟩] ∧
    assign_tasks 0 [⟨0, 60, "work", none⟩]
        [⟨"X", 60, 2, "medium", none, [], none, [], [], none⟩] [] =
      assign_tasks 0 [⟨0, 60, "work", none⟩]
        [⟨"X", 60, 2, "medium", none, [], none, [], [], none⟩] [] :=
  ⟨rfl, assign_tasks_deterministic 0 [⟨0, 60, "work", none⟩] []
    [⟨"X", 60, 2, "medium", none, [], none, [], [], none⟩]
    [⟨"X", 60, 2, "medium", none, [], none, [], [], none⟩] rfl⟩

/-! ### C10 -/

/-- C10 counterexample: with `block_minutes = 0` but `break_minutes = 10` the
loop still terminates (the cursor advances past each break), refuting the
claim that termination holds only under the positive-block-length
precondition: day 0..10 yields a zero-length work block and one break.  A
`some` result means the `while` loop genuinely reached `cur ≥ end_dt`. -/
theorem build_slots_terminates_zero_block_cex :
    build_slots 0 10 0 10 [] =
      some [⟨0, 0, "work", none⟩, ⟨0, 10, "break", none⟩] ∧ ¬(1 : ℤ) ≤ 0 := by
  exact ⟨by decide, by decide⟩

/-- C10 amended: with `block_minutes ≥ 1` the slot-building loop terminates
on every input — each iteration strictly advances the cursor, by
`block_minutes` (plus possibly `break_minutes`) in the work branch or to the
colliding fixed block's end in the fixed branch, which the overlap test
guarantees is strictly later than the cursor; positivity of `block_minutes`
is sufficient (but, per the counterexample, not necessary). -/
theorem build_slots_loop_terminates_pos_block
    (day_start day_end block_minutes break_minutes : ℤ) (F : List FixedBlock)
    (h : 1 ≤ block_minutes) :
    (build_slots day_start day_end block_minutes break_minutes F).isSome ∧
    ∀ (cur : ℤ) (fb : FixedBlock),
      findCollided cur (cur + block_minutes) (sortFixed F) = some fb → cur < fb.endTime := by
  constructor
  · have := buildSlotsGo_isSome block_minutes break_minutes day_end (sortFixed F) h
      (day_end - day_start).toNat day_start (le_refl _)
    simpa [build_slots] using this
  · intro cur fb hfb
    exact ((collides_true_iff _ _ _ _).mp (findCollided_eq_some hfb).2).2

/-- C10 amended witness: the theorem at a concrete input with one fixed
block. -/
theorem build_slots_loop_terminates_pos_block_witness :
    (1 : ℤ) ≤ 60 ∧
    ((build_slots 540 780 60 10 [⟨600, 630, "Standup"⟩]).isSome ∧
    ∀ (cur : ℤ) (fb : FixedBlock),
      findCollided cur (cur + 60) (sortFixed [⟨600, 630, "Standup"⟩]) = some fb →
        cur < fb.endTime) :=
  ⟨by decide, build_slots_loop_terminates_pos_block 540 780 60 10 [⟨600, 630, "Standup"⟩]
    (by decide)⟩

/-! ### C7 -/

/-- C7: for any habit, the insertion scan modifies at most the first work
block whose duration is at least the habit's minutes and which has no task
assigned (`firstEligible`): that block's start is truncated to the habit
block's end and the habit block is inserted immediately before it; when no
block qualifies the slot sequence is returned unchanged (no error). -/
theorem habit_insertion_first_eligible (h : Habit) (slots : List Block) :
    (firstEligible h slots = none → insertHabitGo h slots = slots) ∧
    ∀ i, firstEligible h slots = some i →
      (slots.getD i ⟨0, 0, "", none⟩).kind = "work" ∧
      h.minutes ≤ (slots.getD i ⟨0, 0, "", none⟩).endTime - (slots.getD i ⟨0, 0, "", none⟩).start ∧
      (slots.getD i ⟨0, 0, "", none⟩).task_title = none ∧
      insertHabitGo h slots =
        slots.take i ++
          ⟨(slots.getD i ⟨0, 0, "", none⟩).start,
            (slots.getD i ⟨0, 0, "", none⟩).start + h.minutes, "habit", some h.name⟩ ::
          { slots.getD i ⟨0, 0, "", none⟩ with
              start := (slots.getD i ⟨0, 0, "", none⟩).start + h.minutes } ::
          slots.drop (i + 1) := by
  induction slots with
  | nil =>
    refine ⟨fun _ => rfl, fun i hi => ?_⟩
    rw [firstEligible] at hi
    cases hi
  | cons s rest ih =>
    by_cases hc : s.kind = "work" ∧ s.endTime - s.start ≥ h.minutes ∧ s.task_title = none
    · refine ⟨?_, ?_⟩
      · intro hnone
        rw [firstEligible, if_pos hc] at hnone
        cases hnone
      · intro i hi
        rw [firstEligible, if_pos hc] at hi
        cases hi
        refine ⟨hc.1, hc.2.1, hc.2.2, ?_⟩
        rw [insertHabitGo, if_pos hc]
        rfl
    · have hfe : firstEligible h (s :: rest) = (firstEligible h rest).map (fun i => i + 1) := by
        rw [firstEligible, if_neg hc]
      have hins : insertHabitGo h (s :: rest) = s :: insertHabitGo h rest := by
        rw [insertHabitGo, if_neg hc]
      refine ⟨?_, ?_⟩
      · intro hnone
        rw [hfe, Option.map_eq_none'] at hnone
        rw [hins, ih.1 hnone]
      · intro i hi
        rw [hfe] at hi
        obtain ⟨j, hj, hij⟩ := Option.map_eq_some'.mp hi
        subst hij
        obtain ⟨hk, hd, ht, heq⟩ := ih.2 j hj
        exact ⟨hk, hd, ht, by rw [hins, heq]; rfl⟩

/-! ### Helper lemmas on the task assigner -/

/-- Store update at the mutated object's index. -/
theorem getT_set_self (store : List Task) (b : ℕ) (x : Task) (h : b < store.length) :
    getT (store.set b x) b = x := by
  unfold getT
  rw [List.getD_eq_getElem?_getD, List.getElem?_set_eq_of_lt x h]
  rfl

/-- Store update leaves every other object untouched. -/
theorem getT_set_ne (store : List Task) (b j : ℕ) (x : Task) (h : j ≠ b) :
    getT (store.set b x) j = getT store j := by
  unfold getT
  rw [List.getD_eq_getElem?_getD, List.getD_eq_getElem?_getD,
    List.getElem?_set_ne (Ne.symm h)]

/-- A slot's whole-minute duration, as the code computes it, is never
negative (`timedelta.seconds` lies in `[0, 86400)`). -/
theorem minutesInSlot_nonneg (b : Block) : 0 ≤ minutesInSlot b := by
  unfold minutesInSlot
  have h1 : (0 : ℤ) ≤ (b.endTime - b.start) * 60 % 86400 :=
    Int.emod_nonneg _ (by norm_num)
  exact Int.ediv_nonneg h1 (by norm_num)

/-- The reference of `max(...)` comes from the candidate list (or is the
seed). -/
theorem pickBestGo_mem (today : ℤ) (store : List Task) (idx : ℕ) (e : String) :
    ∀ (cs : List ℕ) (b0 : ℕ) (s0 : ℚ) (r : ℕ),
      pickBestGo today store idx e b0 s0 cs = some r → r = b0 ∨ r ∈ cs := by
  intro cs
  induction cs with
  | nil =>
    intro b0 s0 r h
    rw [pickBestGo] at h
    cases h
    exact Or.inl rfl
  | cons c cs ih =>
    intro b0 s0 r h
    cases hsc : score today (getT store c) idx e with
    | none =>
      rw [pickBestGo, hsc] at h
      exact Option.noConfusion h
    | some sc =>
      simp only [pickBestGo, hsc] at h
      by_cases hlt : s0 < sc
      · rw [if_pos hlt] at h
        rcases ih c sc r h with h' | h'
        · exact Or.inr (h' ▸ List.mem_cons_self _ _)
        · exact Or.inr (List.mem_cons_of_mem _ h')
      · rw [if_neg hlt] at h
        rcases ih b0 s0 r h with h' | h'
        · exact Or.inl h'
        · exact Or.inr (List.mem_cons_of_mem _ h')

/-- The chosen winner is an element of the candidate list. -/
theorem pickBest_mem {today : ℤ} {store : List Task} {idx : ℕ} {e : String}
    {l : List ℕ} {r : ℕ} (h : pickBest today store idx e l = some r) : r ∈ l := by
  cases l with
  | nil => cases h
  | cons c cs =>
    cases hsc : score today (getT store c) idx e with
    | none =>
      rw [pickBest, hsc] at h
      exact Option.noConfusion h
    | some sc =>
      simp only [pickBest, hsc] at h
      rcases pickBestGo_mem today store idx e cs c sc r h with h' | h'
      · exact h' ▸ List.mem_cons_self _ _
      · exact List.mem_cons_of_mem _ h'

/-- When every candidate's score is defined, the accumulator loop succeeds. -/
theorem pickBestGo_isSome (today : ℤ) (store : List Task) (idx : ℕ) (e : String) :
    ∀ (cs : List ℕ) (b0 : ℕ) (s0 : ℚ),
      (∀ c ∈ cs, (score today (getT store c) idx e).isSome) →
      (pickBestGo today store idx e b0 s0 cs).isSome := by
  intro cs
  induction cs with
  | nil => intro b0 s0 _; rw [pickBestGo]; rfl
  | cons c cs ih =>
    intro b0 s0 hall
    obtain ⟨sc, hsc⟩ := Option.isSome_iff_exists.mp (hall c (List.mem_cons_self _ _))
    simp only [pickBestGo, hsc]
    have htail : ∀ x ∈ cs, (score today (getT store x) idx e).isSome :=
      fun x hx => hall x (List.mem_cons_of_mem _ hx)
    by_cases hlt : s0 < sc
    · rw [if_pos hlt]; exact ih c sc htail
    · rw [if_neg hlt]; exact ih b0 s0 htail

/-- `max` over a nonempty candidate list with defined scores succeeds. -/
theorem pickBest_isSome {today : ℤ} {store : List Task} {idx : ℕ} {e : String}
    {l : List ℕ} (hne : l ≠ [])
    (hall : ∀ c ∈ l, (score today (getT store c) idx e).isSome) :
    (pickBest today store idx e l).isSome := by
  cases l with
  | nil => exact absurd rfl hne
  | cons c cs =>
    obtain ⟨sc, hsc⟩ := Option.isSome_iff_exists.mp (hall c (List.mem_cons_self _ _))
    simp only [pickBest, hsc]
    exact pickBestGo_isSome today store idx e cs c sc
      (fun x hx => hall x (List.mem_cons_of_mem _ hx))

/-- First-maximum property of the accumulator loop: either the seed wins and
every scanned score is at most the seed's, or the winner sits somewhere in
the list with a defined score strictly above the seed's, strictly above every
earlier score, and at least every later score. -/
theorem pickBestGo_max (today : ℤ) (store : List Task) (idx : ℕ) (e : String) :
    ∀ (cs : List ℕ) (b0 : ℕ) (s0 : ℚ) (r : ℕ),
      pickBestGo today store idx e b0 s0 cs = some r →
      (r = b0 ∧ ∀ c ∈ cs, ∃ sc, score today (getT store c) idx e = some sc ∧ sc ≤ s0) ∨
      (∃ cs1 cs2 sr, cs = cs1 ++ r :: cs2 ∧
        score today (getT store r) idx e = some sr ∧ s0 < sr ∧
        (∀ c ∈ cs1, ∃ sc, score today (getT store c) idx e = some sc ∧ sc < sr) ∧
        (∀ c ∈ cs2, ∃ sc, score today (getT store c) idx e = some sc ∧ sc ≤ sr)) := by
  intro cs
  induction cs with
  | nil =>
    intro b0 s0 r h
    rw [pickBestGo] at h
    cases h
    exact Or.inl ⟨rfl, by intro c hc; cases hc⟩
  | cons c cs ih =>
    intro b0 s0 r h
    cases hsc : score today (getT store c) idx e with
    | none =>
      rw [pickBestGo, hsc] at h
      exact Option.noConfusion h
    | some sc =>
      simp only [pickBestGo, hsc] at h
      by_cases hlt : s0 < sc
      · rw [if_pos hlt] at h
        rcases ih c sc r h with ⟨hrc, hall⟩ | ⟨cs1, cs2, sr, hsplit, hsr, hscr, h1, h2⟩
        · subst hrc
          exact Or.inr ⟨[], cs, sc, rfl, hsc, hlt, (by intro x hx; cases hx), hall⟩
        · subst hsplit
          refine Or.inr ⟨c :: cs1, cs2, sr, rfl, hsr, lt_trans hlt hscr, ?_, h2⟩
          intro x hx
          rcases List.mem_cons.mp hx with hx | hx
          · subst hx; exact ⟨sc, hsc, hscr⟩
          · exact h1 x hx
      · rw [if_neg hlt] at h
        rcases ih b0 s0 r h with ⟨hrb, hall⟩ | ⟨cs1, cs2, sr, hsplit, hsr, hscr, h1, h2⟩
        · refine Or.inl ⟨hrb, ?_⟩
          intro x hx
          rcases List.mem_cons.mp hx with hx | hx
          · subst hx; exact ⟨sc, hsc, le_of_not_lt hlt⟩
          · exact hall x hx
        · subst hsplit
          refine Or.inr ⟨c :: cs1, cs2, sr, rfl, hsr, hscr, ?_, h2⟩
          intro x hx
          rcases List.mem_cons.mp hx with hx | hx
          · subst hx
            exact ⟨sc, hsc, by push_neg at hlt; exact lt_of_le_of_lt hlt hscr⟩
          · exact h1 x hx

/-- First-maximum property of `max(candidates, key=score)`: the winner splits
the list, every earlier candidate scores strictly below it and every later
one at most it (CPython's max replaces the running best only on a strictly
greater key). -/
theorem pickBest_max {today : ℤ} {store : List Task} {idx : ℕ} {e : String}
    {l : List ℕ} {r : ℕ} (h : pickBest today store idx e l = some r) :
    ∃ l1 l2 sr, l = l1 ++ r :: l2 ∧
      score today (getT store r) idx e = some sr ∧
      (∀ c ∈ l1, ∃ sc, score today (getT store c) idx e = some sc ∧ sc < sr) ∧
      (∀ c ∈ l2, ∃ sc, score today (getT store c) idx e = some sc ∧ sc ≤ sr) := by
  cases l with
  | nil => cases h
  | cons c cs =>
    cases hsc : score today (getT store c) idx e with
    | none =>
      rw [pickBest, hsc] at h
      exact Option.noConfusion h
    | some sc =>
      simp only [pickBest, hsc] at h
      rcases pickBestGo_max today store idx e cs c sc r h with
        ⟨hrc, hall⟩ | ⟨cs1, cs2, sr, hsplit, hsr, hscr, h1, h2⟩
      · subst hrc
        exact ⟨[], cs, sc, rfl, hsc, (by intro x hx; cases hx), hall⟩
      · subst hsplit
        refine ⟨c :: cs1, cs2, sr, rfl, hsr, ?_, h2⟩
        intro x hx
        rcases List.mem_cons.mp hx with hx | hx
        · subst hx; exact ⟨sc, hsc, hscr⟩
        · exact h1 x hx

/-- Specification of `remaining.remove(best)`: the removed index is the first
one whose record equals the target. -/
theorem removeFirstEq_eq_some (store : List Task) (rec : Task) :
    ∀ (l l' : List ℕ), removeFirstEq store rec l = some l' →
      ∃ l1 j l2, l = l1 ++ j :: l2 ∧ l' = l1 ++ l2 ∧ getT store j = rec ∧
        ∀ i ∈ l1, getT store i ≠ rec := by
  intro l
  induction l with
  | nil => intro l' h; cases h
  | cons j js ih =>
    intro l' h
    rw [removeFirstEq] at h
    by_cases hj : getT store j = rec
    · rw [if_pos hj] at h
      cases h
      exact ⟨[], j, js, rfl, rfl, hj, by intro i hi; cases hi⟩
    · rw [if_neg hj] at h
      obtain ⟨js', hjs', hl'⟩ := Option.map_eq_some'.mp h
      obtain ⟨l1, j', l2, hsplit, hjs'eq, hj', hl1⟩ := ih js' hjs'
      subst hl'
      subst hsplit
      subst hjs'eq
      refine ⟨j :: l1, j', l2, rfl, rfl, hj', ?_⟩
      intro i hi
      rcases List.mem_cons.mp hi with hi | hi
      · subst hi; exact hj
      · exact hl1 i hi

/-- `remove` succeeds when some remaining index holds the target record. -/
theorem removeFirstEq_isSome (store : List Task) (rec : Task) :
    ∀ l : List ℕ, (∃ j ∈ l, getT store j = rec) → (removeFirstEq store rec l).isSome := by
  intro l
  induction l with
  | nil => intro h; obtain ⟨j, hj, _⟩ := h; cases hj
  | cons k ks ih =>
    intro h
    rw [removeFirstEq]
    by_cases hk : getT store k = rec
    · rw [if_pos hk]; rfl
    · rw [if_neg hk]
      obtain ⟨j, hj, hjrec⟩ := h
      rcases List.mem_cons.mp hj with hj | hj
      · subst hj; exact absurd hjrec hk
      · obtain ⟨l', hl'⟩ := Option.isSome_iff_exists.mp (ih ⟨j, hj, hjrec⟩)
        rw [hl']
        rfl

/-- In a duplicate-free list, an element occurring before `b` in one split
occurs to the left of `b` in any split at `b`. -/
theorem mem_left_of_splits :
    ∀ (l1 m1 l2 m2 : List ℕ) (j b : ℕ),
      (l1 ++ j :: l2).Nodup → l1 ++ j :: l2 = m1 ++ b :: m2 → b ∈ l2 → j ∈ m1 := by
  intro l1
  induction l1 with
  | nil =>
    intro m1 l2 m2 j b hnd heq hb
    cases m1 with
    | nil =>
      simp only [List.nil_append] at heq
      injection heq with h1 h2
      subst h1
      exact absurd (h2 ▸ hb) (List.Nodup.not_mem hnd)
    | cons x m1' =>
      simp only [List.nil_append, List.cons_append] at heq
      injection heq with h1 _
      subst h1
      exact List.mem_cons_self _ _
  | cons a l1' ih =>
    intro m1 l2 m2 j b hnd heq hb
    cases m1 with
    | nil =>
      simp only [List.cons_append, List.nil_append] at heq
      injection heq with h1 h2
      subst h1
      have : a ∉ l1' ++ j :: l2 := List.Nodup.not_mem (by simpa using hnd)
      exact absurd (List.mem_append_right _ (List.mem_cons_of_mem _ hb)) this
    | cons x m1' =>
      simp only [List.cons_append] at heq
      injection heq with h1 h2
      have hnd' : (l1' ++ j :: l2).Nodup := (List.nodup_cons.mp (by simpa using hnd)).2
      exact List.mem_cons_of_mem _ (ih m1' l2 m2 j b hnd' h2 hb)

/-- The score is antitone in the remaining minutes: decrementing the minutes
(by a nonnegative slot duration) can only raise the short-task bonus and
leaves every other term unchanged. -/
theorem score_minutes_mono (today : ℤ) (t : Task) (d : ℤ) (hd : 0 ≤ d) (idx : ℕ)
    (e : String) {s s' : ℚ} (hs : score today t idx e = some s)
    (hs' : score today (decMinutes t d) idx e = some s') : s ≤ s' := by
  cases hp : prioTable t.priority with
  | none => rw [score, hp] at hs; cases hs
  | some p =>
    have hp' : prioTable (decMinutes t d).priority = some p := hp
    rw [score, hp] at hs
    rw [score, hp'] at hs'
    simp only [Option.some.injEq] at hs hs'
    subst hs
    subst hs'
    have hshort : (if t.minutes ≤ 60 then (1.2 : ℚ) else 1.0) ≤
        (if (decMinutes t d).minutes ≤ 60 then (1.2 : ℚ) else 1.0) := by
      have hm : (decMinutes t d).minutes = t.minutes - d := rfl
      rw [hm]
      split_ifs with h1 h2 h3
      · exact le_refl _
      · omega
      · norm_num
      · exact le_refl _
    have hrest : morning_boost idx (decMinutes t d).priority = morning_boost idx t.priority :=
      rfl
    have hdl : (decMinutes t d).deadline = t.deadline := rfl
    have hen : (decMinutes t d).energy = t.energy := rfl
    rw [hrest, hdl, hen]
    have h5 : (0 : ℚ) < 0.5 := by norm_num
    nlinarith [hshort]

/-- One-step specification of the assignment loop.  The delicate part is
that `remaining.remove(best)` removes exactly the winner itself: a remaining
index holding a record equal to the winner's decremented record would have to
sit strictly before the winner in the candidate list with a score at least
the winner's (the records differ only in minutes, and a smaller remaining
time can only raise the short-task bonus), contradicting the first-maximum
property of `max`. -/
theorem assignStep_spec (today : ℤ) (profile : List String) (idx : ℕ) (slot : Block)
    (store : List Task) (remaining : List ℕ)
    (hnd : remaining.Nodup) (hbound : ∀ i ∈ remaining, i < store.length)
    (slot' : Block) (asg : Option ℕ) (store' : List Task) (rem' : List ℕ)
    (h : assignStep today profile idx slot store remaining = some (slot', asg, store', rem')) :
    store'.length = store.length ∧
    (∀ i, (getT store' i).minutes ≤ (getT store i).minutes) ∧
    rem'.Sublist remaining ∧
    (asg = none → store' = store ∧ rem' = remaining) ∧
    (∀ b, asg = some b → b ∈ remaining ∧
      (∀ j, j ≠ b → getT store' j = getT store j) ∧
      (b ∈ rem' ↔ 0 < (getT store' b).minutes) ∧
      (∀ i ∈ remaining, i ≠ b → i ∈ rem')) := by
  by_cases hskip : slot.kind ≠ "work" ∨ remaining = []
  · rw [assignStep, if_pos hskip] at h
    simp only [Option.some.injEq, Prod.mk.injEq] at h
    obtain ⟨-, h2, h3, h4⟩ := h
    subst h2
    subst h3
    subst h4
    exact ⟨rfl, fun i => le_refl _, List.Sublist.refl _, fun _ => ⟨rfl, rfl⟩,
      fun b hb => Option.noConfusion hb⟩
  · rw [assignStep, if_neg hskip] at h
    dsimp only at h
    cases hpick : pickBest today store idx (slotEnergy profile idx)
        (if candidatesOf store remaining = [] then remaining else candidatesOf store remaining)
      with
    | none =>
      rw [hpick] at h
      exact Option.noConfusion h
    | some b =>
      simp only [hpick] at h
      have hbused := pickBest_mem hpick
      have hbrem : b ∈ remaining := by
        by_cases hc0 : candidatesOf store remaining = []
        · rwa [if_pos hc0] at hbused
        · rw [if_neg hc0, candidatesOf] at hbused
          exact (List.mem_filter.mp hbused).1
      have hblt : b < store.length := hbound b hbrem
      have hset_self :
          getT (store.set b (decMinutes (getT store b) (minutesInSlot slot))) b =
            decMinutes (getT store b) (minutesInSlot slot) := getT_set_self _ _ _ hblt
      have hlen : (store.set b (decMinutes (getT store b) (minutesInSlot slot))).length =
          store.length := List.length_set _ _ _
      have hmono : ∀ i,
          (getT (store.set b (decMinutes (getT store b) (minutesInSlot slot))) i).minutes ≤
            (getT store i).minutes := by
        intro i
        by_cases hib : i = b
        · subst hib
          rw [hset_self]
          have := minutesInSlot_nonneg slot
          show (getT store i).minutes - minutesInSlot slot ≤ (getT store i).minutes
          omega
        · rw [getT_set_ne _ _ _ _ hib]
      have huntouched : ∀ j, j ≠ b →
          getT (store.set b (decMinutes (getT store b) (minutesInSlot slot))) j =
            getT store j := fun j hj => getT_set_ne _ _ _ _ hj
      by_cases hdone : (decMinutes (getT store b) (minutesInSlot slot)).minutes ≤ 0
      · rw [if_pos hdone] at h
        cases hrem : removeFirstEq (store.set b (decMinutes (getT store b) (minutesInSlot slot)))
            (decMinutes (getT store b) (minutesInSlot slot)) remaining with
        | none =>
          rw [hrem] at h
          exact Option.noConfusion h
        | some rem'' =>
          simp only [hrem, Option.some.injEq, Prod.mk.injEq] at h
          obtain ⟨-, h2, h3, h4⟩ := h
          subst h2
          subst h3
          subst h4
          obtain ⟨l1, j, l2, hsplit, hrem''eq, hjrec, hl1⟩ :=
            removeFirstEq_eq_some _ _ _ _ hrem
          have hbl1 : b ∉ l1 := fun hb => hl1 b hb hset_self
          have hjb : j = b := by
            by_contra hjb
            have hjrem : j ∈ remaining := hsplit ▸ List.mem_append_right _
              (List.mem_cons_self _ _)
            have hjstore : getT store j = decMinutes (getT store b) (minutesInSlot slot) := by
              rw [← huntouched j hjb]
              exact hjrec
            have hbl2 : b ∈ l2 := by
              have : b ∈ l1 ++ j :: l2 := hsplit ▸ hbrem
              rcases List.mem_append.mp this with hb | hb
              · exact absurd hb hbl1
              · rcases List.mem_cons.mp hb with hb | hb
                · exact absurd hb.symm hjb
                · exact hb
            obtain ⟨m1, m2, sb, husplit, hsb, hm1, hm2⟩ := pickBest_max hpick
            have hjused : j ∈
                (if candidatesOf store remaining = [] then remaining
                  else candidatesOf store remaining) ∧
                ∃ u1 u2, (if candidatesOf store remaining = [] then remaining
                  else candidatesOf store remaining) = u1 ++ j :: u2 ∧ b ∈ u2 ∧
                  (u1 ++ j :: u2).Nodup := by
              by_cases hc0 : candidatesOf store remaining = []
              · rw [if_pos hc0]
                exact ⟨hjrem, l1, l2, hsplit, hbl2, hsplit ▸ hnd⟩
              · rw [if_neg hc0]
                have hpb : depOK store remaining b = true := by
                  have hb2 := hbused
                  rw [if_neg hc0, candidatesOf] at hb2
                  exact (List.mem_filter.mp hb2).2
                have hdep_eq : (getT store j).depends_on = (getT store b).depends_on := by
                  rw [hjstore]
                  rfl
                have hpj : depOK store remaining j = true := by
                  have heq2 : depOK store remaining j = depOK store remaining b := by
                    rw [depOK, depOK, hdep_eq]
                  rw [heq2]
                  exact hpb
                have h1 : candidatesOf store remaining =
                    (l1 ++ j :: l2).filter (depOK store remaining) := by
                  rw [candidatesOf]
                  exact congrArg _ hsplit
                have h3 : (j :: l2).filter (depOK store remaining) =
                    j :: l2.filter (depOK store remaining) := List.filter_cons_of_pos hpj
                have hfil : candidatesOf store remaining =
                    l1.filter (depOK store remaining) ++
                      j :: l2.filter (depOK store remaining) := by
                  rw [h1, List.filter_append, h3]
                have hbfil : b ∈ l2.filter (depOK store remaining) :=
                  List.mem_filter.mpr ⟨hbl2, hpb⟩
                refine ⟨?_, _, _, hfil, hbfil, ?_⟩
                · rw [candidatesOf]
                  exact List.mem_filter.mpr ⟨hjrem, hpj⟩
                · rw [← hfil, candidatesOf]
                  exact List.Nodup.filter _ hnd
            obtain ⟨hjused', u1, u2, huspl, hbu2, hund⟩ := hjused
            have hjm1 : j ∈ m1 :=
              mem_left_of_splits u1 m1 u2 m2 j b hund (huspl ▸ husplit) hbu2
            obtain ⟨sj, hsj, hsjlt⟩ := hm1 j hjm1
            have hsjs : score today (decMinutes (getT store b) (minutesInSlot slot)) idx
                (slotEnergy profile idx) = some sj := by
              rw [← hjstore]
              exact hsj
            have := score_minutes_mono today (getT store b) (minutesInSlot slot)
              (minutesInSlot_nonneg slot) idx (slotEnergy profile idx) hsb hsjs
            exact absurd hsjlt (not_lt.mpr this)
          subst hjb
          have hnd2 : (l1 ++ j :: l2).Nodup := hsplit ▸ hnd
          obtain ⟨hnd_l1, hnd_cons, hdisj2⟩ := List.nodup_append.mp hnd2
          have hjl2 : j ∉ l2 := (List.nodup_cons.mp hnd_cons).1
          have hjl1 : j ∉ l1 := fun hj => hdisj2 hj (List.mem_cons_self _ _)
          refine ⟨hlen, hmono, ?_, ?_, ?_⟩
          · rw [hsplit, hrem''eq]
            exact List.Sublist.append_left (List.sublist_cons_self _ _) l1
          · intro hno; exact Option.noConfusion hno
          · intro b' hb'
            injection hb' with hb'
            subst hb'
            refine ⟨hbrem, huntouched, ?_, ?_⟩
            · rw [hrem''eq, hset_self]
              constructor
              · intro hmem
                rcases List.mem_append.mp hmem with hm | hm
                · exact absurd hm hjl1
                · exact absurd hm hjl2
              · intro hpos
                omega
            · intro i hi hib
              rw [hrem''eq]
              have : i ∈ l1 ++ j :: l2 := hsplit ▸ hi
              rcases List.mem_append.mp this with hm | hm
              · exact List.mem_append_left _ hm
              · rcases List.mem_cons.mp hm with hm | hm
                · exact absurd hm hib
                · exact List.mem_append_right _ hm
      · rw [if_neg hdone] at h
        simp only [Option.some.injEq, Prod.mk.injEq] at h
        obtain ⟨-, h2, h3, h4⟩ := h
        subst h2
        subst h3
        subst h4
        refine ⟨hlen, hmono, List.Sublist.refl _, ?_, ?_⟩
        · intro hno; exact Option.noConfusion hno
        · intro b' hb'
          injection hb' with hb'
          subst hb'
          refine ⟨hbrem, huntouched, ?_, fun i hi _ => hi⟩
          rw [hset_self]
          constructor
          · intro _; omega
          · intro _; exact hbrem

/-! ### C6 -/

/-- C6: across the assignment pass (started at any slot position and state):
the remaining minutes of every task object never increases; the remaining
pool only shrinks; a task outside the pool is never assigned to any slot and
its record never changes (once removed, never assigned again); a task that is
never assigned keeps its minutes; and a pool task leaves the pool during the
pass exactly when it is assigned to some slot and its minutes has dropped to
`≤ 0` (removal happens exactly when the decrement reaches zero or below). -/
theorem assign_monotonic_consumption (today : ℤ) (profile : List String) :
    ∀ (slots : List Block) (idx : ℕ) (store : List Task) (remaining : List ℕ)
      (out : List (Block × Option ℕ)) (storeF : List Task) (remF : List ℕ),
      remaining.Nodup → (∀ i ∈ remaining, i < store.length) →
      assignGo today profile idx slots store remaining = some (out, storeF, remF) →
      (∀ i, (getT storeF i).minutes ≤ (getT store i).minutes) ∧
      remF.Sublist remaining ∧
      (∀ i, i ∉ remaining →
        (∀ p ∈ out, p.2 ≠ some i) ∧ i ∉ remF ∧ getT storeF i = getT store i) ∧
      (∀ i, (∀ p ∈ out, p.2 ≠ some i) → getT storeF i = getT store i) ∧
      (∀ i ∈ remaining,
        (i ∉ remF ↔ (∃ p ∈ out, p.2 = some i) ∧ (getT storeF i).minutes ≤ 0)) := by
  intro slots
  induction slots with
  | nil =>
    intro idx store remaining out storeF remF hnd hbound h
    rw [assignGo] at h
    simp only [Option.some.injEq, Prod.mk.injEq] at h
    obtain ⟨h1, h2, h3⟩ := h
    subst h1
    subst h2
    subst h3
    refine ⟨fun i => le_refl _, List.Sublist.refl _, ?_, fun i _ => rfl, ?_⟩
    · intro i hi
      exact ⟨fun p hp => absurd hp (List.not_mem_nil p), hi, rfl⟩
    · intro i hi
      constructor
      · intro hni
        exact absurd hi hni
      · rintro ⟨⟨p, hp, -⟩, -⟩
        exact absurd hp (List.not_mem_nil p)
  | cons s ss ih =>
    intro idx store remaining out storeF remF hnd hbound h
    rw [assignGo] at h
    cases hstep : assignStep today profile idx s store remaining with
    | none =>
      rw [hstep] at h
      exact Option.noConfusion h
    | some t =>
      obtain ⟨s', asg, store1, rem1⟩ := t
      simp only [hstep] at h
      cases hgo : assignGo today profile (idx + 1) ss store1 rem1 with
      | none =>
        rw [hgo] at h
        exact Option.noConfusion h
      | some tri =>
        obtain ⟨out1, storeF1, remF1⟩ := tri
        simp only [hgo, Option.some.injEq, Prod.mk.injEq] at h
        obtain ⟨h1, h2, h3⟩ := h
        subst h1
        subst h2
        subst h3
        obtain ⟨hlen1, hmono1, hsub1, hnone1, hsome1⟩ :=
          assignStep_spec today profile idx s store remaining hnd hbound s' asg store1 rem1
            hstep
        have hnd1 : rem1.Nodup := List.Nodup.sublist hsub1 hnd
        have hbound1 : ∀ i ∈ rem1, i < store1.length := by
          intro i hi
          rw [hlen1]
          exact hbound i (hsub1.subset hi)
        obtain ⟨ihmono, ihsub, ihnotin, ihunasg, ihiff⟩ :=
          ih (idx + 1) store1 rem1 out1 storeF1 remF1 hnd1 hbound1 hgo
        refine ⟨fun i => le_trans (ihmono i) (hmono1 i), ihsub.trans hsub1, ?_, ?_, ?_⟩
        · intro i hi
          cases asg with
          | none =>
            obtain ⟨hst, hre⟩ := hnone1 rfl
            subst hst
            subst hre
            obtain ⟨ha, hb, hc⟩ := ihnotin i hi
            refine ⟨?_, hb, hc⟩
            intro p hp
            rcases List.mem_cons.mp hp with hp | hp
            · subst hp
              exact fun hc' => Option.noConfusion hc'
            · exact ha p hp
          | some b =>
            obtain ⟨hbrem, hunt, hbiff, hstay⟩ := hsome1 b rfl
            have hib : i ≠ b := fun hib => hi (hib ▸ hbrem)
            have hi1 : i ∉ rem1 := fun hir => hi (hsub1.subset hir)
            obtain ⟨ha, hb2, hc⟩ := ihnotin i hi1
            refine ⟨?_, hb2, by rw [hc, hunt i hib]⟩
            intro p hp
            rcases List.mem_cons.mp hp with hp | hp
            · subst hp
              intro hc'
              injection hc' with hc'
              exact hib hc'.symm
            · exact ha p hp
        · intro i hforall
          have hheadne : asg ≠ some i :=
            hforall (s', asg) (List.mem_cons_self _ _)
          have htail : ∀ p ∈ out1, p.2 ≠ some i :=
            fun p hp => hforall p (List.mem_cons_of_mem _ hp)
          have h2' := ihunasg i htail
          cases asg with
          | none =>
            obtain ⟨hst, -⟩ := hnone1 rfl
            rw [h2', hst]
          | some b =>
            obtain ⟨-, hunt, -, -⟩ := hsome1 b rfl
            have hib : i ≠ b := fun hib => hheadne (by rw [hib])
            rw [h2', hunt i hib]
        · intro i hirem
          cases asg with
          | none =>
            obtain ⟨hst, hre⟩ := hnone1 rfl
            subst hst
            subst hre
            have hiff := ihiff i hirem
            constructor
            · intro hnot
              obtain ⟨⟨p, hp, hpi⟩, hm⟩ := hiff.mp hnot
              exact ⟨⟨p, List.mem_cons_of_mem _ hp, hpi⟩, hm⟩
            · rintro ⟨⟨p, hp, hpi⟩, hm⟩
              rcases List.mem_cons.mp hp with hp | hp
              · subst hp
                exact Option.noConfusion hpi
              · exact hiff.mpr ⟨⟨p, hp, hpi⟩, hm⟩
          | some b =>
            obtain ⟨hbrem, hunt, hbiff, hstay⟩ := hsome1 b rfl
            by_cases hib : i = b
            · subst hib
              by_cases hin : i ∈ rem1
              · have hpos : 0 < (getT store1 i).minutes := hbiff.mp hin
                have hiff := ihiff i hin
                constructor
                · intro hnot
                  obtain ⟨⟨p, hp, hpi⟩, hm⟩ := hiff.mp hnot
                  exact ⟨⟨p, List.mem_cons_of_mem _ hp, hpi⟩, hm⟩
                · rintro ⟨-, hm⟩
                  by_cases htl : ∃ q ∈ out1, q.2 = some i
                  · exact hiff.mpr ⟨htl, hm⟩
                  · exfalso
                    have hnone' : ∀ q ∈ out1, q.2 ≠ some i :=
                      fun q hq hqc => htl ⟨q, hq, hqc⟩
                    rw [ihunasg i hnone'] at hm
                    omega
              · obtain ⟨-, hnm, hcst⟩ := ihnotin i hin
                constructor
                · intro _
                  refine ⟨⟨(s', some i), List.mem_cons_self _ _, rfl⟩, ?_⟩
                  rw [hcst]
                  exact le_of_not_lt (fun hp => hin (hbiff.mpr hp))
                · intro _
                  exact hnm
            · have hin : i ∈ rem1 := hstay i hirem hib
              have hiff := ihiff i hin
              have hstore_eq : getT store1 i = getT store i := hunt i hib
              constructor
              · intro hnot
                obtain ⟨⟨p, hp, hpi⟩, hm⟩ := hiff.mp hnot
                exact ⟨⟨p, List.mem_cons_of_mem _ hp, hpi⟩, hm⟩
              · rintro ⟨⟨p, hp, hpi⟩, hm⟩
                rcases List.mem_cons.mp hp with hp | hp
                · subst hp
                  exfalso
                  injection hpi with hpi
                  exact hib hpi.symm
                · exact hiff.mpr ⟨⟨p, hp, hpi⟩, hm⟩

/-- C6 witness: the theorem applied to a one-task, one-work-slot run in which
the task's 60 minutes are fully consumed and it is removed from the pool. -/
theorem assign_monotonic_consumption_witness :
    ([0] : List ℕ).Nodup ∧
    (∀ i ∈ ([0] : List ℕ),
      i < ([⟨"X", 60, 2, "medium", none, [], none, [], [], none⟩] : List Task).length) ∧
    assignGo 0 [] 0 [⟨0, 60, "work", none⟩]
        [⟨"X", 60, 2, "medium", none, [], none, [], [], none⟩] [0] =
      some ([(⟨0, 60, "work", some "X"⟩, some 0)],
        [⟨"X", 0, 2, "medium", none, [], none, [], [], none⟩], []) ∧
    ((∀ i, (getT [⟨"X", 0, 2, "medium", none, [], none, [], [], none⟩] i).minutes ≤
        (getT [⟨"X", 60, 2, "medium", none, [], none, [], [], none⟩] i).minutes) ∧
    ([] : List ℕ).Sublist [0] ∧
    (∀ i, i ∉ ([0] : List ℕ) →
      (∀ p ∈ [((⟨0, 60, "work", some "X"⟩ : Block), some 0)], p.2 ≠ some i) ∧
      i ∉ ([] : List ℕ) ∧
      getT [⟨"X", 0, 2, "medium", none, [], none, [], [], none⟩] i =
        getT [⟨"X", 60, 2, "medium", none, [], none, [], [], none⟩] i) ∧
    (∀ i, (∀ p ∈ [((⟨0, 60, "work", some "X"⟩ : Block), some 0)], p.2 ≠ some i) →
      getT [⟨"X", 0, 2, "medium", none, [], none, [], [], none⟩] i =
        getT [⟨"X", 60, 2, "medium", none, [], none, [], [], none⟩] i) ∧
    (∀ i ∈ ([0] : List ℕ),
      (i ∉ ([] : List ℕ) ↔
        (∃ p ∈ [((⟨0, 60, "work", some "X"⟩ : Block), some 0)], p.2 = some i) ∧
        (getT [⟨"X", 0, 2, "medium", none, [], none, [], [], none⟩] i).minutes ≤ 0))) := by
  have hrun : assignGo 0 [] 0 [⟨0, 60, "work", none⟩]
      [⟨"X", 60, 2, "medium", none, [], none, [], [], none⟩] [0] =
      some ([(⟨0, 60, "work", some "X"⟩, some 0)],
        [⟨"X", 0, 2, "medium", none, [], none, [], [], none⟩], []) := by
    simp [assignGo, assignStep, candidatesOf, depOK, remainingTitles, getT, slotEnergy,
      pickBest, pickBestGo, score, prioTable, minutesInSlot, decMinutes, removeFirstEq,
      morning_boost, ENERGY_ORDER, defaultTask]
  exact ⟨by decide, by decide, hrun,
    assign_monotonic_consumption 0 [] [⟨0, 60, "work", none⟩] 0
      [⟨"X", 60, 2, "medium", none, [], none, [], [], none⟩] [0]
      [(⟨0, 60, "work", some "X"⟩, some 0)]
      [⟨"X", 0, 2, "medium", none, [], none, [], [], none⟩] []
      (by decide) (by decide) hrun⟩

/-! ### C8 -/

/-- C8: for a work slot with a non-empty remaining pool, the candidate set is
exactly the remaining tasks none of whose dependency titles occur among the
titles of currently-remaining tasks; when that set is empty the assigner
falls back to the full remaining set, so the candidate list handed to `max`
is never empty, and (whenever the scores are defined, i.e. no unrelated
KeyError from an out-of-range priority) a winning task is selected and the
step completes without error. -/
theorem candidates_filter_and_fallback (today : ℤ) (profile : List String) (idx : ℕ)
    (slot : Block) (store : List Task) (remaining : List ℕ)
    (hkind : slot.kind = "work") (hrem : remaining ≠ [])
    (hbound : ∀ i ∈ remaining, i < store.length)
    (hscore : ∀ i ∈ remaining,
      (score today (getT store i) idx (slotEnergy profile idx)).isSome) :
    (∀ i, i ∈ candidatesOf store remaining ↔
      (i ∈ remaining ∧ ∀ dep ∈ (getT store i).depends_on,
        ¬∃ j ∈ remaining, (getT store j).title = dep)) ∧
    (if candidatesOf store remaining = [] then remaining
      else candidatesOf store remaining) ≠ [] ∧
    ∃ b res,
      pickBest today store idx (slotEnergy profile idx)
        (if candidatesOf store remaining = [] then remaining
          else candidatesOf store remaining) = some b ∧
      assignStep today profile idx slot store remaining = some res ∧
      res.2.1 = some b := by
  have hskip : ¬(slot.kind ≠ "work" ∨ remaining = []) := by
    intro hor
    rcases hor with hk | he
    · exact hk hkind
    · exact hrem he
  have husedsub : ∀ x, x ∈ (if candidatesOf store remaining = [] then remaining
      else candidatesOf store remaining) → x ∈ remaining := by
    intro x hx
    by_cases hc0 : candidatesOf store remaining = []
    · rwa [if_pos hc0] at hx
    · rw [if_neg hc0, candidatesOf] at hx
      exact (List.mem_filter.mp hx).1
  have husedne : (if candidatesOf store remaining = [] then remaining
      else candidatesOf store remaining) ≠ [] := by
    by_cases hc0 : candidatesOf store remaining = []
    · rw [if_pos hc0]; exact hrem
    · rw [if_neg hc0]; exact hc0
  have hps : (pickBest today store idx (slotEnergy profile idx)
      (if candidatesOf store remaining = [] then remaining
        else candidatesOf store remaining)).isSome :=
    pickBest_isSome husedne (fun c hc => hscore c (husedsub c hc))
  obtain ⟨b, hpickeq⟩ := Option.isSome_iff_exists.mp hps
  have hbrem : b ∈ remaining := husedsub b (pickBest_mem hpickeq)
  have hblt : b < store.length := hbound b hbrem
  refine ⟨?_, husedne, ?_⟩
  · intro i
    simp [candidatesOf, depOK, List.mem_filter, List.all_eq_true, remainingTitles,
      List.mem_map]
  · by_cases hdone : (decMinutes (getT store b) (minutesInSlot slot)).minutes ≤ 0
    · have hrm : (removeFirstEq
          (store.set b (decMinutes (getT store b) (minutesInSlot slot)))
          (decMinutes (getT store b) (minutesInSlot slot)) remaining).isSome :=
        removeFirstEq_isSome _ _ _ ⟨b, hbrem, getT_set_self _ _ _ hblt⟩
      obtain ⟨rem'', hrm'⟩ := Option.isSome_iff_exists.mp hrm
      refine ⟨b, ({ slot with task_title := some (getT store b).title }, some b,
        store.set b (decMinutes (getT store b) (minutesInSlot slot)), rem''),
        hpickeq, ?_, rfl⟩
      rw [assignStep, if_neg hskip]
      dsimp only
      simp only [hpickeq, if_pos hdone, hrm']
    · refine ⟨b, ({ slot with task_title := some (getT store b).title }, some b,
        store.set b (decMinutes (getT store b) (minutesInSlot slot)), remaining),
        hpickeq, ?_, rfl⟩
      rw [assignStep, if_neg hskip]
      dsimp only
      simp only [hpickeq, if_neg hdone]

/-- C8 witness: one work slot, two tasks where the second depends on the
still-remaining first, so the candidate set is exactly the first task, and
the step assigns it. -/
theorem candidates_filter_and_fallback_witness :
    ((⟨0, 60, "work", none⟩ : Block).kind = "work" ∧
    ([0, 1] : List ℕ) ≠ [] ∧
    (∀ i ∈ ([0, 1] : List ℕ),
      i < ([⟨"A", 60, 2, "medium", none, [], none, [], [], none⟩,
        ⟨"B", 30, 2, "medium", none, [], none, ["A"], [], none⟩] : List Task).length) ∧
    (∀ i ∈ ([0, 1] : List ℕ),
      (score 0 (getT [⟨"A", 60, 2, "medium", none, [], none, [], [], none⟩,
        ⟨"B", 30, 2, "medium", none, [], none, ["A"], [], none⟩] i) 0
        (slotEnergy [] 0)).isSome)) ∧
    ((∀ i, i ∈ candidatesOf
        [⟨"A", 60, 2, "medium", none, [], none, [], [], none⟩,
          ⟨"B", 30, 2, "medium", none, [], none, ["A"], [], none⟩] [0, 1] ↔
      (i ∈ ([0, 1] : List ℕ) ∧
        ∀ dep ∈ (getT [⟨"A", 60, 2, "medium", none, [], none, [], [], none⟩,
          ⟨"B", 30, 2, "medium", none, [], none, ["A"], [], none⟩] i).depends_on,
        ¬∃ j ∈ ([0, 1] : List ℕ),
          (getT [⟨"A", 60, 2, "medium", none, [], none, [], [], none⟩,
            ⟨"B", 30, 2, "medium", none, [], none, ["A"], [], none⟩] j).title = dep)) ∧
    (if candidatesOf [⟨"A", 60, 2, "medium", none, [], none, [], [], none⟩,
        ⟨"B", 30, 2, "medium", none, [], none, ["A"], [], none⟩] [0, 1] = []
      then ([0, 1] : List ℕ)
      else candidatesOf [⟨"A", 60, 2, "medium", none, [], none, [], [], none⟩,
        ⟨"B", 30, 2, "medium", none, [], none, ["A"], [], none⟩] [0, 1]) ≠ [] ∧
    ∃ b res,
      pickBest 0 [⟨"A", 60, 2, "medium", none, [], none, [], [], none⟩,
          ⟨"B", 30, 2, "medium", none, [], none, ["A"], [], none⟩] 0 (slotEnergy [] 0)
        (if candidatesOf [⟨"A", 60, 2, "medium", none, [], none, [], [], none⟩,
            ⟨"B", 30, 2, "medium", none, [], none, ["A"], [], none⟩] [0, 1] = []
          then ([0, 1] : List ℕ)
          else candidatesOf [⟨"A", 60, 2, "medium", none, [], none, [], [], none⟩,
            ⟨"B", 30, 2, "medium", none, [], none, ["A"], [], none⟩] [0, 1]) = some b ∧
      assignStep 0 [] 0 ⟨0, 60, "work", none⟩
        [⟨"A", 60, 2, "medium", none, [], none, [], [], none⟩,
          ⟨"B", 30, 2, "medium", none, [], none, ["A"], [], none⟩] [0, 1] = some res ∧
      res.2.1 = some b) := by
  refine ⟨⟨rfl, by decide, by decide, ?_⟩, ?_⟩
  · intro i hi
    fin_cases hi <;>
      simp [score, prioTable, getT, slotEnergy]
  · refine candidates_filter_and_fallback 0 [] 0 ⟨0, 60, "work", none⟩
      [⟨"A", 60, 2, "medium", none, [], none, [], [], none⟩,
        ⟨"B", 30, 2, "medium", none, [], none, ["A"], [], none⟩] [0, 1]
      rfl (by decide) (by decide) ?_
    intro i hi
    fin_cases hi <;>
      simp [score, prioTable, getT, slotEnergy]

/-- C7 witness: a 10-minute habit skips a 5-minute work block and lands on
the second work block, truncating its start. -/
theorem habit_insertion_first_eligible_witness :
    firstEligible ⟨"run", true, 10, true⟩
        [⟨0, 5, "work", none⟩, ⟨5, 60, "work", none⟩] = some 1 ∧
    (([⟨0, 5, "work", none⟩, ⟨5, 60, "work", none⟩] : List Block).getD 1
        ⟨0, 0, "", none⟩).kind = "work" ∧
    (10 : ℤ) ≤ (([⟨0, 5, "work", none⟩, ⟨5, 60, "work", none⟩] : List Block).getD 1
        ⟨0, 0, "", none⟩).endTime -
      (([⟨0, 5, "work", none⟩, ⟨5, 60, "work", none⟩] : List Block).getD 1
        ⟨0, 0, "", none⟩).start ∧
    (([⟨0, 5, "work", none⟩, ⟨5, 60, "work", none⟩] : List Block).getD 1
        ⟨0, 0, "", none⟩).task_title = none ∧
    insertHabitGo ⟨"run", true, 10, true⟩ [⟨0, 5, "work", none⟩, ⟨5, 60, "work", none⟩] =
      ([⟨0, 5, "work", none⟩, ⟨5, 60, "work", none⟩] : List Block).take 1 ++
        ⟨(([⟨0, 5, "work", none⟩, ⟨5, 60, "work", none⟩] : List Block).getD 1
            ⟨0, 0, "", none⟩).start,
          (([⟨0, 5, "work", none⟩, ⟨5, 60, "work", none⟩] : List Block).getD 1
            ⟨0, 0, "", none⟩).start + 10, "habit", some "run"⟩ ::
        { ([⟨0, 5, "work", none⟩, ⟨5, 60, "work", none⟩] : List Block).getD 1
            ⟨0, 0, "", none⟩ with
            start := (([⟨0, 5, "work", none⟩, ⟨5, 60, "work", none⟩] : List Block).getD 1
              ⟨0, 0, "", none⟩).start + 10 } ::
        ([⟨0, 5, "work", none⟩, ⟨5, 60, "work", none⟩] : List Block).drop 2 :=
  ⟨by decide,
    (habit_insertion_first_eligible ⟨"run", true, 10, true⟩
      [⟨0, 5, "work", none⟩, ⟨5, 60, "work", none⟩]).2 1 (by decide)⟩

end Planner
